import Mathlib

set_option maxRecDepth 1000000
set_option maxHeartbeats 4000000

/-!
Verification of the Gomoku brain engine (Brain.cpp) against its
natural-language specification.

The board (`_goban`, C++ `State = std::vector<int>`) is modelled as a
`List Int`; the board dimensions `_boardSize = (width, height)` are passed
explicitly as two `Nat` arguments `w` and `h`.  Cell access `state[i]` is
modelled by `cellGet` (`List.getD` with default `0`; all accesses performed
by the embedded code under the usual length invariant are in bounds, so the
default is never observed there).  C++ `int` values are modelled as `Int`
with the concrete twos-complement bounds `INT_MIN`/`INT_MAX` where the
code uses `std::numeric_limits<int>`; none of the embedded arithmetic
overflows 32 bits.  The `WIN_CONDITION` enum of Brain.hpp gives the
constants used by `minimax`: `PLAYER_ONE_WIN = 1`, `PLAYER_TWO_WIN = 2`,
`DRAW = 3`.
-/

namespace Gomoku

/-- Value of `std::numeric_limits<int>::min()`. -/
def INT_MIN : Int := -2147483648

/-- Value of `std::numeric_limits<int>::max()`. -/
def INT_MAX : Int := 2147483647

/-- The board type: C++ `State = std::vector<int>`. -/
abbrev State := List Int

/-- Bounds-respecting cell read, modelling `state[idx]`. -/
def cellGet (s : State) (idx : Nat) : Int :=
  s.getD idx 0

/-- Body of the double loop of `Brain::checkWinCondition` for one cell
`(row i, column j)`: the cell holds `player` and one of the four guarded
directional probes (right, down, down-right, up-right) finds four more
`player` cells.  The guards are the C++ `int` comparisons
`j <= width - 5`, `i <= height - 5`, `i >= 4`. -/
def winAt (w h : Nat) (s : State) (player : Int) (i j : Nat) : Bool :=
  (cellGet s (i * w + j) == player) &&
  ((decide ((j : Int) ≤ (w : Int) - 5) &&
      (cellGet s (i * w + j + 1) == player) &&
      (cellGet s (i * w + j + 2) == player) &&
      (cellGet s (i * w + j + 3) == player) &&
      (cellGet s (i * w + j + 4) == player)) ||
   (decide ((i : Int) ≤ (h : Int) - 5) &&
      (cellGet s ((i + 1) * w + j) == player) &&
      (cellGet s ((i + 2) * w + j) == player) &&
      (cellGet s ((i + 3) * w + j) == player) &&
      (cellGet s ((i + 4) * w + j) == player)) ||
   (decide ((i : Int) ≤ (h : Int) - 5) && decide ((j : Int) ≤ (w : Int) - 5) &&
      (cellGet s ((i + 1) * w + (j + 1)) == player) &&
      (cellGet s ((i + 2) * w + (j + 2)) == player) &&
      (cellGet s ((i + 3) * w + (j + 3)) == player) &&
      (cellGet s ((i + 4) * w + (j + 4)) == player)) ||
   (decide (4 ≤ i) && decide ((j : Int) ≤ (w : Int) - 5) &&
      (cellGet s ((i - 1) * w + (j + 1)) == player) &&
      (cellGet s ((i - 2) * w + (j + 2)) == player) &&
      (cellGet s ((i - 3) * w + (j + 3)) == player) &&
      (cellGet s ((i - 4) * w + (j + 4)) == player)))

/-- Embeds `Brain::checkWinCondition`: scan all cells, return true on the first
cell from which a guarded directional probe succeeds. -/
def checkWinCondition (w h : Nat) (s : State) (player : Int) : Bool :=
  (List.range h).any fun i => (List.range w).any fun j => winAt w h s player i j

/-- Embeds `Brain::isBoardFull`: no cell holds `0`. -/
def isBoardFull (s : State) : Bool :=
  s.all fun c => !(c == 0)

/-- Embeds `Brain::applyMove`: copy the state and place `player` at index `move`. -/
def applyMove (s : State) (move : Nat) (player : Int) : State :=
  s.set move player

/-- Embeds `Brain::hasNeighbor`: `x = index / width` is the row, `y = index % width`
the column; some offset `(dx, dy)` with `-range ≤ dx, dy ≤ range`, not both
zero, lands in bounds on a nonzero cell. -/
def hasNeighbor (w h : Nat) (s : State) (index : Nat) (range : Nat) : Bool :=
  let x : Int := (index / w : Nat)
  let y : Int := (index % w : Nat)
  (List.range (2 * range + 1)).any fun dxk =>
    (List.range (2 * range + 1)).any fun dyk =>
      let dx : Int := (dxk : Int) - (range : Int)
      let dy : Int := (dyk : Int) - (range : Int)
      if dx = 0 ∧ dy = 0 then false
      else
        let nx := x + dx
        let ny := y + dy
        decide (0 ≤ nx) && decide (nx < (h : Int)) &&
        decide (0 ≤ ny) && decide (ny < (w : Int)) &&
        !(cellGet s (nx * (w : Int) + ny).toNat == 0)

/-- Embeds `Brain::getPossibleMoves`: empty cells with an occupied cell in the
`range`-1 neighborhood, in index order; if none, the single center cell
`(height/2)*width + width/2` is pushed unconditionally. -/
def getPossibleMoves (w h : Nat) (s : State) : List Nat :=
  let moves := (List.range s.length).filter fun i =>
    (cellGet s i == 0) && hasNeighbor w h s i 1
  if moves.isEmpty then [h / 2 * w + w / 2] else moves

/-- Loop body of the maximizing branch of `Brain::minimax`: `rec st a b`
stands for `minimax(st, depth-1, false, a, b).first`.  State threads
`(maxEval, bestMoveFound, alpha)`; the loop breaks when `beta ≤ alpha`
after the alpha update. -/
def maxLoop (rec : State → Int → Int → Int) (s : State) :
    List Nat → Int → Int → Int → Int → Int × Int
  | [], maxEval, best, _, _ => (maxEval, best)
  | m :: rest, maxEval, best, alpha, beta =>
      let eval := rec (s.set m 1) alpha beta
      let maxEval2 := if maxEval < eval then eval else maxEval
      let best2 := if maxEval < eval then (m : Int) else best
      let alpha2 := max alpha eval
      if beta ≤ alpha2 then (maxEval2, best2)
      else maxLoop rec s rest maxEval2 best2 alpha2 beta

/-- Loop body of the minimizing branch of `Brain::minimax` (mirror image,
placing player 2 and updating `beta`). -/
def minLoop (rec : State → Int → Int → Int) (s : State) :
    List Nat → Int → Int → Int → Int → Int × Int
  | [], minEval, best, _, _ => (minEval, best)
  | m :: rest, minEval, best, alpha, beta =>
      let eval := rec (s.set m 2) alpha beta
      let minEval2 := if eval < minEval then eval else minEval
      let best2 := if eval < minEval then (m : Int) else best
      let beta2 := min beta eval
      if beta2 ≤ alpha then (minEval2, best2)
      else minLoop rec s rest minEval2 best2 alpha beta2

/-- Embeds `Brain::minimax` with alpha-beta pruning.  Base cases in source order:
player 1 five-in-row returns `(PLAYER_ONE_WIN, 0) = (1, 0)`; player 2
five-in-row returns `(PLAYER_TWO_WIN, 0) = (2, 0)`; `depth == 0` or a full
board returns `(DRAW, DRAW) = (3, 3)`.  After the loop, a negative
`bestMoveFound` falls back to the first candidate. -/
def minimax (w h : Nat) : Nat → State → Bool → Int → Int → Int × Int
  | 0, s, _, _, _ =>
      if checkWinCondition w h s 1 then (1, 0)
      else if checkWinCondition w h s 2 then (2, 0)
      else (3, 3)
  | d + 1, s, maximizing, alpha, beta =>
      if checkWinCondition w h s 1 then (1, 0)
      else if checkWinCondition w h s 2 then (2, 0)
      else if isBoardFull s then (3, 3)
      else
        let moves := getPossibleMoves w h s
        if maximizing then
          if moves.isEmpty then (3, 3)
          else
            let r := maxLoop (fun st a b => (minimax w h d st false a b).1)
              s moves INT_MIN (-1) alpha beta
            (r.1, if r.2 < 0 then ((moves.headD 0 : Nat) : Int) else r.2)
        else
          if moves.isEmpty then (3, 3)
          else
            let r := minLoop (fun st a b => (minimax w h d st true a b).1)
              s moves INT_MAX (-1) alpha beta
            (r.1, if r.2 < 0 then ((moves.headD 0 : Nat) : Int) else r.2)

/-- Modelled from the spec: loop of the unpruned exhaustive maximizing ply
("track the maximum score seen and its originating move", tie-break in
favor of the earliest strictly-improving candidate), with `rec st` standing
for the score of the unpruned search one ply deeper. -/
def plainMaxLoop (rec : State → Int) (s : State) :
    List Nat → Int → Int → Int × Int
  | [], maxEval, best => (maxEval, best)
  | m :: rest, maxEval, best =>
      let eval := rec (s.set m 1)
      if maxEval < eval then plainMaxLoop rec s rest eval (m : Int)
      else plainMaxLoop rec s rest maxEval best

/-- Modelled from the spec: unpruned exhaustive minimizing ply (mirror). -/
def plainMinLoop (rec : State → Int) (s : State) :
    List Nat → Int → Int → Int × Int
  | [], minEval, best => (minEval, best)
  | m :: rest, minEval, best =>
      let eval := rec (s.set m 2)
      if eval < minEval then plainMinLoop rec s rest eval (m : Int)
      else plainMinLoop rec s rest minEval best

/-- Modelled from the spec: the unpruned exhaustive minimax over the same
candidate set, with the same base cases as the code and the same
first-strict-improvement tie-break and first-candidate fallback, but no
alpha-beta window and no cutoff. -/
def minimaxUnpruned (w h : Nat) : Nat → State → Bool → Int × Int
  | 0, s, _ =>
      if checkWinCondition w h s 1 then (1, 0)
      else if checkWinCondition w h s 2 then (2, 0)
      else (3, 3)
  | d + 1, s, maximizing =>
      if checkWinCondition w h s 1 then (1, 0)
      else if checkWinCondition w h s 2 then (2, 0)
      else if isBoardFull s then (3, 3)
      else
        let moves := getPossibleMoves w h s
        if maximizing then
          if moves.isEmpty then (3, 3)
          else
            let r := plainMaxLoop (fun st => (minimaxUnpruned w h d st false).1)
              s moves INT_MIN (-1)
            (r.1, if r.2 < 0 then ((moves.headD 0 : Nat) : Int) else r.2)
        else
          if moves.isEmpty then (3, 3)
          else
            let r := plainMinLoop (fun st => (minimaxUnpruned w h d st true).1)
              s moves INT_MAX (-1)
            (r.1, if r.2 < 0 then ((moves.headD 0 : Nat) : Int) else r.2)

/-- Embeds `Brain::sendCoordinate`: negative coordinates produce an error (no
coordinate line); otherwise the pair is emitted. -/
def sendCoordinate (x y : Int) : Option (Int × Int) :=
  if x < 0 ∨ y < 0 then none else some (x, y)

/-- Embeds `Brain::checkAlgorithmReturn`: rejects a result whose score equals
`DRAW = 3`, whose move index equals `PLAYER_ONE_WIN = 1` or
`PLAYER_TWO_WIN = 2`, or whose move index is out of range of the goban. -/
def checkAlgorithmReturn (gobanLen : Nat) (r : Int × Int) : Bool :=
  if r.1 = 3 then false
  else if r.2 = 1 ∨ r.2 = 2 then false
  else if r.2 ≥ (gobanLen : Int) ∨ r.2 < 0 then false
  else true

/-- Embeds `Brain::handleTurn` after successful parsing of the coordinates `x,y`:
bounds-check, write OPPONENT (`2`) at `(x, y)`, run `minimax` at depth 3
with the full window, and send `(move % width, move / width)`.  Returns the
final goban and the emitted coordinate (`none` when nothing but an error
was sent). -/
def handleTurn (w h : Nat) (g : State) (x y : Int) : State × Option (Int × Int) :=
  if x < 0 ∨ (w : Int) ≤ x ∨ y < 0 ∨ (h : Int) ≤ y then (g, none)
  else
    let g2 := g.set (y * (w : Int) + x).toNat 2
    let r := minimax w h 3 g2 true INT_MIN INT_MAX
    (g2, sendCoordinate (r.2 % (w : Int)) (r.2 / (w : Int)))

/-- Embeds `Brain::handleBegin`: run `minimax` at depth 3 with the full window;
if `checkAlgorithmReturn` rejects the result, only an error is sent and the
goban is untouched; otherwise write SELF (`1`) at the move index and send
`(move % width, move / width)`. -/
def handleBegin (w h : Nat) (g : State) : State × Option (Int × Int) :=
  let r := minimax w h 3 g true INT_MIN INT_MAX
  if checkAlgorithmReturn g.length r then
    (g.set r.2.toNat 1, some (r.2 % (w : Int), r.2 / (w : Int)))
  else (g, none)

/-- Embeds `Brain::handleDone`: run `minimax` at depth 5 with the full window and
send `(move % width, move / width)` with no check of the result and no
board update. -/
def handleDone (w h : Nat) (g : State) : State × Option (Int × Int) :=
  let r := minimax w h 5 g true INT_MIN INT_MAX
  (g, sendCoordinate (r.2 % (w : Int), r.2 / (w : Int)).1 (r.2 / (w : Int)))

/-- C++ `std::vector::resize(n, v)`: truncate to `n` when shrinking, append
copies of `v` when growing; existing elements are preserved. -/
def listResize (l : List Int) (n : Nat) (v : Int) : List Int :=
  if n ≤ l.length then l.take n else l ++ List.replicate (n - l.length) v

/-- Embeds `Brain::handleStart` after parsing the size: sizes below
`Constants::MIN_BOARD_SIZE = 20` are rejected; otherwise `_boardSize`
becomes `(size, size)` and the goban is `resize`d to `size*size` with
fill value `0`.  Returns `((goban, boardSize), ok)`. -/
def handleStart (g : State) (sz : Nat × Nat) (boardSize : Int) :
    (State × (Nat × Nat)) × Bool :=
  if boardSize < 20 then ((g, sz), false)
  else ((listResize g (boardSize.toNat * boardSize.toNat) 0,
        (boardSize.toNat, boardSize.toNat)), true)

/-- Embeds `Brain::handleRecstart` after parsing `width,height`: both dimensions
must be at least `20`; the goban is `resize`d to `width*height` with fill
value `0`. -/
def handleRecstart (g : State) (sz : Nat × Nat) (width height : Int) :
    (State × (Nat × Nat)) × Bool :=
  if width < 20 ∨ height < 20 then ((g, sz), false)
  else ((listResize g (width.toNat * height.toNat) 0,
        (width.toNat, height.toNat)), true)

/-- Embeds `Brain::handleBoard` after parsing one bulk-load entry `x,y,player`:
bounds-check the coordinates, reject only `player == 3`, then write
`player` (whatever integer it is) at `(x, y)`. -/
def handleBoard (w h : Nat) (g : State) (x y player : Int) : State × Bool :=
  if x < 0 ∨ (w : Int) ≤ x ∨ y < 0 ∨ (h : Int) ≤ y then (g, false)
  else if player = 3 then (g, false)
  else (g.set (y * (w : Int) + x).toNat player, true)

/-- Index read by `Brain::checkTerminator`: `payload.size() - 1` computed
in `size_t` arithmetic, so the subtraction wraps modulo `2^64`. -/
def checkTerminatorReadIndex (payload : List Char) : Nat :=
  (payload.length + 2 ^ 64 - 1) % 2 ^ 64

/-- Keyword matching of the dispatch loop: `data.find(keyword) == 0`. -/
def keywordMatches (line kw : List Char) : Bool :=
  line.take kw.length == kw

/-- Payload extraction of the dispatch loop:
`data.substr(keyword.size())`. -/
def payloadAfter (line kw : List Char) : List Char :=
  line.drop kw.length

/-! ## Specification-side predicates for the terminal detector (claim C7) -/

/-- Horizontal run of five `p` cells starting at `(row i, column j)`,
entirely on the board. -/
def specRunRight (w h : Nat) (s : State) (p : Int) (i j : Nat) : Prop :=
  i < h ∧ j + 4 < w ∧
  cellGet s (i * w + j) = p ∧ cellGet s (i * w + j + 1) = p ∧
  cellGet s (i * w + j + 2) = p ∧ cellGet s (i * w + j + 3) = p ∧
  cellGet s (i * w + j + 4) = p

/-- Vertical run of five `p` cells starting at `(row i, column j)`. -/
def specRunDown (w h : Nat) (s : State) (p : Int) (i j : Nat) : Prop :=
  i + 4 < h ∧ j < w ∧
  cellGet s (i * w + j) = p ∧ cellGet s ((i + 1) * w + j) = p ∧
  cellGet s ((i + 2) * w + j) = p ∧ cellGet s ((i + 3) * w + j) = p ∧
  cellGet s ((i + 4) * w + j) = p

/-- Down-right diagonal run of five `p` cells starting at `(i, j)`. -/
def specRunDownRight (w h : Nat) (s : State) (p : Int) (i j : Nat) : Prop :=
  i + 4 < h ∧ j + 4 < w ∧
  cellGet s (i * w + j) = p ∧ cellGet s ((i + 1) * w + (j + 1)) = p ∧
  cellGet s ((i + 2) * w + (j + 2)) = p ∧ cellGet s ((i + 3) * w + (j + 3)) = p ∧
  cellGet s ((i + 4) * w + (j + 4)) = p

/-- Up-right diagonal run of five `p` cells starting at `(i, j)`. -/
def specRunUpRight (w h : Nat) (s : State) (p : Int) (i j : Nat) : Prop :=
  4 ≤ i ∧ i < h ∧ j + 4 < w ∧
  cellGet s (i * w + j) = p ∧ cellGet s ((i - 1) * w + (j + 1)) = p ∧
  cellGet s ((i - 2) * w + (j + 2)) = p ∧ cellGet s ((i - 3) * w + (j + 3)) = p ∧
  cellGet s ((i - 4) * w + (j + 4)) = p

/-- The board contains a contiguous run of five (hence of any length at
least five) cells owned by `p` in one of the four scanned directions. -/
def specHasRunFive (w h : Nat) (s : State) (p : Int) : Prop :=
  ∃ i j, specRunRight w h s p i j ∨ specRunDown w h s p i j ∨
    specRunDownRight w h s p i j ∨ specRunUpRight w h s p i j

/-- Unfolding of the four-direction scan at one cell into the
specification predicates, assuming the cell is on the board. -/
theorem winAt_true_iff (w h : Nat) (s : State) (p : Int) (i j : Nat)
    (hi : i < h) (hj : j < w) :
    winAt w h s p i j = true ↔
      specRunRight w h s p i j ∨ specRunDown w h s p i j ∨
      specRunDownRight w h s p i j ∨ specRunUpRight w h s p i j := by
  simp only [winAt, Bool.and_eq_true, Bool.or_eq_true, beq_iff_eq,
    decide_eq_true_eq, and_assoc, or_assoc, specRunRight, specRunDown,
    specRunDownRight, specRunUpRight]
  constructor
  · rintro ⟨h0, hdir⟩
    rcases hdir with ⟨g1, c1, c2, c3, c4⟩ | ⟨g1, c1, c2, c3, c4⟩ |
      ⟨g1, g2, c1, c2, c3, c4⟩ | ⟨g1, g2, c1, c2, c3, c4⟩
    · exact Or.inl ⟨hi, by omega, h0, c1, c2, c3, c4⟩
    · exact Or.inr (Or.inl ⟨by omega, hj, h0, c1, c2, c3, c4⟩)
    · exact Or.inr (Or.inr (Or.inl ⟨by omega, by omega, h0, c1, c2, c3, c4⟩))
    · exact Or.inr (Or.inr (Or.inr ⟨g1, hi, by omega, h0, c1, c2, c3, c4⟩))
  · rintro (⟨h5, hb, h0, c1, c2, c3, c4⟩ | ⟨hb, h5, h0, c1, c2, c3, c4⟩ |
      ⟨hb, hb2, h0, c1, c2, c3, c4⟩ | ⟨hb, h5, hb2, h0, c1, c2, c3, c4⟩)
    · exact ⟨h0, Or.inl ⟨by omega, c1, c2, c3, c4⟩⟩
    · exact ⟨h0, Or.inr (Or.inl ⟨by omega, c1, c2, c3, c4⟩)⟩
    · exact ⟨h0, Or.inr (Or.inr (Or.inl ⟨by omega, by omega, c1, c2, c3, c4⟩))⟩
    · exact ⟨h0, Or.inr (Or.inr (Or.inr ⟨by omega, by omega, c1, c2, c3, c4⟩))⟩

/-- The scan of `checkWinCondition` succeeds exactly when the board
contains a five-run of the given owner in one of the four directions. -/
theorem checkWinCondition_true_iff (w h : Nat) (s : State) (p : Int) :
    checkWinCondition w h s p = true ↔ specHasRunFive w h s p := by
  unfold checkWinCondition specHasRunFive
  simp only [List.any_eq_true, List.mem_range]
  constructor
  · rintro ⟨i, hi, j, hj, hw⟩
    exact ⟨i, j, (winAt_true_iff w h s p i j hi hj).1 hw⟩
  · rintro ⟨i, j, hcase⟩
    have hi : i < h := by
      rcases hcase with ⟨hb, _⟩ | ⟨hb, _⟩ | ⟨hb, _⟩ | ⟨_, hb, _⟩ <;> omega
    have hj : j < w := by
      rcases hcase with ⟨_, hb, _⟩ | ⟨_, hb, _⟩ | ⟨_, hb, _⟩ | ⟨_, _, hb, _⟩ <;> omega
    exact ⟨i, hi, j, hj, (winAt_true_iff w h s p i j hi hj).2 hcase⟩

/-! ## Counting occupied cells -/

/-- A cell read returning a nonzero value must be in bounds, because the
out-of-bounds default is `0`. -/
theorem lt_length_of_cellGet_ne_zero {s : State} {k : Nat} {p : Int}
    (hv : cellGet s k = p) (hp : p ≠ 0) : k < s.length := by
  by_contra hk
  rw [cellGet, List.getD_eq_default s 0 (Nat.le_of_not_lt hk)] at hv
  exact hp hv.symm

/-- Reading through `List.drop` shifts the index. -/
theorem cellGet_drop (s : State) (n k : Nat) :
    cellGet (s.drop n) k = cellGet s (n + k) := by
  rw [cellGet, cellGet, List.getD_eq_getElem?_getD, List.getD_eq_getElem?_getD,
    List.getElem?_drop]

/-- Strictly increasing positions at which a list satisfies a predicate
bound its `countP` from below (stated for the tail `s.drop n` so that the
induction can walk along the position list). -/
theorem countP_indices_le (pr : Int → Bool) :
    ∀ (idxs : List Nat) (s : State) (n : Nat),
      idxs.Pairwise (· < ·) →
      (∀ k ∈ idxs, n ≤ k ∧ k < s.length ∧ pr (cellGet s k) = true) →
      idxs.length ≤ (s.drop n).countP pr := by
  intro idxs
  induction idxs with
  | nil => intro s n _ _; simp
  | cons i rest ih =>
      intro s n hpw hall
      obtain ⟨hn, hlen, hval⟩ := hall i (List.mem_cons_self i rest)
      have hpw2 := List.pairwise_cons.1 hpw
      have hrest : ∀ k ∈ rest, i + 1 ≤ k ∧ k < s.length ∧
          pr (cellGet s k) = true := by
        intro k hk
        obtain ⟨_, hk2, hk3⟩ := hall k (List.mem_cons_of_mem i hk)
        exact ⟨hpw2.1 k hk, hk2, hk3⟩
      have ihr := ih s (i + 1) hpw2.2 hrest
      have hsplit : s.drop n =
          (s.drop n).take (i + 1 - n) ++ s.drop (i + 1) := by
        conv_lhs => rw [← List.take_append_drop (i + 1 - n) (s.drop n)]
        rw [List.drop_drop]
        congr 2
        omega
      have hone : 1 ≤ ((s.drop n).take (i + 1 - n)).countP pr := by
        have hq : i - n < ((s.drop n).take (i + 1 - n)).length := by
          rw [List.length_take, List.length_drop]
          omega
        refine List.countP_pos_iff.2 ⟨_, List.getElem_mem hq, ?_⟩
        rw [List.getElem_take, List.getElem_drop]
        have hidx : n + (i - n) = i := by omega
        have hlt : n + (i - n) < s.length := by omega
        have : s[n + (i - n)] = cellGet s i := by
          rw [cellGet, List.getD_eq_getElem s 0 (hidx ▸ hlt)]
          congr 1
        rw [this]
        exact hval
      calc (i :: rest).length = rest.length + 1 := by simp
        _ ≤ (s.drop (i + 1)).countP pr + 1 := by omega
        _ ≤ ((s.drop n).take (i + 1 - n)).countP pr +
              (s.drop (i + 1)).countP pr := by omega
        _ = (s.drop n).countP pr := by
              conv_rhs => rw [hsplit]
              rw [List.countP_append]

/-- Pairwise comparison for a concrete five-element list. -/
theorem pairwise_lt_five {a b c d e : Nat} (h1 : a < b) (h2 : b < c)
    (h3 : c < d) (h4 : d < e) : [a, b, c, d, e].Pairwise (· < ·) := by
  refine List.Pairwise.cons ?_ (List.Pairwise.cons ?_ (List.Pairwise.cons ?_
    (List.Pairwise.cons ?_ (List.pairwise_singleton _ e)))) <;>
    · intro x hx
      fin_cases hx <;> omega

/-- A successful five-run scan forces at least five occupied cells. -/
theorem five_le_countNonzero (w h : Nat) (s : State) (p : Int) (hp : p ≠ 0)
    (hwin : checkWinCondition w h s p = true) :
    5 ≤ s.countP fun c => !(c == 0) := by
  obtain ⟨i, j, hcase⟩ := (checkWinCondition_true_iff w h s p).1 hwin
  have hval : ∀ k, cellGet s k = p →
      k < s.length ∧ (fun c : Int => !(c == 0)) (cellGet s k) = true := by
    intro k hk
    refine ⟨lt_length_of_cellGet_ne_zero hk hp, ?_⟩
    simp [hk, hp]
  have main : ∀ idxs : List Nat, idxs.Pairwise (· < ·) →
      (∀ k ∈ idxs, cellGet s k = p) → idxs.length ≤ s.countP fun c => !(c == 0) := by
    intro idxs hpw hcells
    have := countP_indices_le (fun c => !(c == 0)) idxs s 0 hpw ?_
    · rwa [List.drop_zero] at this
    · intro k hk
      obtain ⟨h1, h2⟩ := hval k (hcells k hk)
      exact ⟨Nat.zero_le k, h1, h2⟩
  rcases hcase with ⟨hi, hjw, c0, c1, c2, c3, c4⟩ | ⟨hih, hj, c0, c1, c2, c3, c4⟩ |
    ⟨hih, hjw, c0, c1, c2, c3, c4⟩ | ⟨hi4, hi, hjw, c0, c1, c2, c3, c4⟩
  · have := main [i * w + j, i * w + j + 1, i * w + j + 2, i * w + j + 3,
      i * w + j + 4] ?_ ?_
    · simpa using this
    · exact pairwise_lt_five (by omega) (by omega) (by omega) (by omega)
    · intro k hk
      simp only [List.mem_cons, List.not_mem_nil, or_false] at hk
      rcases hk with rfl | rfl | rfl | rfl | rfl <;> assumption
  · have hw0 : 0 < w := by omega
    have e1 : (i + 1) * w + j = i * w + j + w := by ring
    have e2 : (i + 2) * w + j = i * w + j + 2 * w := by ring
    have e3 : (i + 3) * w + j = i * w + j + 3 * w := by ring
    have e4 : (i + 4) * w + j = i * w + j + 4 * w := by ring
    rw [e1] at c1; rw [e2] at c2; rw [e3] at c3; rw [e4] at c4
    have := main [i * w + j, i * w + j + w, i * w + j + 2 * w,
      i * w + j + 3 * w, i * w + j + 4 * w] ?_ ?_
    · simpa using this
    · exact pairwise_lt_five (by omega) (by omega) (by omega) (by omega)
    · intro k hk
      simp only [List.mem_cons, List.not_mem_nil, or_false] at hk
      rcases hk with rfl | rfl | rfl | rfl | rfl <;> assumption
  · have hw0 : 0 < w := by omega
    have e1 : (i + 1) * w + (j + 1) = i * w + j + (w + 1) := by ring
    have e2 : (i + 2) * w + (j + 2) = i * w + j + 2 * (w + 1) := by ring
    have e3 : (i + 3) * w + (j + 3) = i * w + j + 3 * (w + 1) := by ring
    have e4 : (i + 4) * w + (j + 4) = i * w + j + 4 * (w + 1) := by ring
    rw [e1] at c1; rw [e2] at c2; rw [e3] at c3; rw [e4] at c4
    have := main [i * w + j, i * w + j + (w + 1), i * w + j + 2 * (w + 1),
      i * w + j + 3 * (w + 1), i * w + j + 4 * (w + 1)] ?_ ?_
    · simpa using this
    · exact pairwise_lt_five (by omega) (by omega) (by omega) (by omega)
    · intro k hk
      simp only [List.mem_cons, List.not_mem_nil, or_false] at hk
      rcases hk with rfl | rfl | rfl | rfl | rfl <;> assumption
  · have hw5 : 5 ≤ w := by omega
    obtain ⟨i0, rfl⟩ : ∃ i0, i = i0 + 4 := ⟨i - 4, by omega⟩
    have e0 : (i0 + 4) * w + j = i0 * w + j + 4 * w := by ring
    have e1 : (i0 + 4 - 1) * w + (j + 1) = i0 * w + j + 3 * w + 1 := by
      have : i0 + 4 - 1 = i0 + 3 := by omega
      rw [this]; ring
    have e2 : (i0 + 4 - 2) * w + (j + 2) = i0 * w + j + 2 * w + 2 := by
      have : i0 + 4 - 2 = i0 + 2 := by omega
      rw [this]; ring
    have e3 : (i0 + 4 - 3) * w + (j + 3) = i0 * w + j + w + 3 := by
      have : i0 + 4 - 3 = i0 + 1 := by omega
      rw [this]; ring
    have e4 : (i0 + 4 - 4) * w + (j + 4) = i0 * w + j + 4 := by
      have : i0 + 4 - 4 = i0 := by omega
      rw [this]; ring
    rw [e0] at c0; rw [e1] at c1; rw [e2] at c2; rw [e3] at c3; rw [e4] at c4
    have := main [i0 * w + j + 4, i0 * w + j + w + 3, i0 * w + j + 2 * w + 2,
      i0 * w + j + 3 * w + 1, i0 * w + j + 4 * w] ?_ ?_
    · simpa using this
    · exact pairwise_lt_five (by omega) (by omega) (by omega) (by omega)
    · intro k hk
      simp only [List.mem_cons, List.not_mem_nil, or_false] at hk
      rcases hk with rfl | rfl | rfl | rfl | rfl <;> assumption

/-- On a board with fewer than five occupied cells no owner can have five
in a row. -/
theorem checkWin_false_of_few (w h : Nat) (s : State) (p : Int) (hp : p ≠ 0)
    (hc : s.countP (fun c => !(c == 0)) < 5) :
    checkWinCondition w h s p = false := by
  cases hcw : checkWinCondition w h s p
  · rfl
  · exact absurd (five_le_countNonzero w h s p hp hcw) (by omega)

/-- Writing one cell increases the occupied-cell count by at most one. -/
theorem countP_set_le (s : State) (m : Nat) (v : Int) (pr : Int → Bool) :
    (s.set m v).countP pr ≤ s.countP pr + 1 := by
  by_cases hm : m < s.length
  · rw [List.countP_set pr s m v hm]
    split_ifs <;> omega
  · rw [List.set_eq_of_length_le (Nat.le_of_not_lt hm)]
    omega

/-! ## Behaviour of minimax on quiet boards -/

/-- The candidate generator never returns an empty list: the center cell is
pushed unconditionally when the neighbor filter produces nothing. -/
theorem getPossibleMoves_ne_nil (w h : Nat) (s : State) :
    getPossibleMoves w h s ≠ [] := by
  rw [getPossibleMoves]
  by_cases hE : ((List.range s.length).filter fun i =>
      (cellGet s i == 0) && hasNeighbor w h s i 1).isEmpty
  · simp [hE]
  · simp only [hE, Bool.false_eq_true, if_false]
    exact fun hc => hE (List.isEmpty_iff.2 hc)

/-- Once the running maximum is `3` and every remaining candidate evaluates
to `3`, the maximizing loop never changes its accumulator again. -/
theorem maxLoop_stay (rec : State → Int → Int → Int) (s : State) :
    ∀ (ms : List Nat) (best a b : Int),
      (∀ m ∈ ms, ∀ a2 b2, rec (s.set m 1) a2 b2 = 3) →
      maxLoop rec s ms 3 best a b = (3, best) := by
  intro ms
  induction ms with
  | nil => intro best a b _; rfl
  | cons m rest ih =>
      intro best a b hrec
      have he : rec (s.set m 1) a b = 3 := hrec m (List.mem_cons_self m rest) a b
      simp only [maxLoop, he, lt_self_iff_false, if_false]
      split
      · rfl
      · exact ih best (max a 3) b fun m2 hm2 => hrec m2 (List.mem_cons_of_mem m hm2)

/-- Mirror of `maxLoop_stay` for the minimizing loop. -/
theorem minLoop_stay (rec : State → Int → Int → Int) (s : State) :
    ∀ (ms : List Nat) (best a b : Int),
      (∀ m ∈ ms, ∀ a2 b2, rec (s.set m 2) a2 b2 = 3) →
      minLoop rec s ms 3 best a b = (3, best) := by
  intro ms
  induction ms with
  | nil => intro best a b _; rfl
  | cons m rest ih =>
      intro best a b hrec
      have he : rec (s.set m 2) a b = 3 := hrec m (List.mem_cons_self m rest) a b
      simp only [minLoop, he, lt_self_iff_false, if_false]
      split
      · rfl
      · exact ih best a (min b 3) fun m2 hm2 => hrec m2 (List.mem_cons_of_mem m hm2)

/-- When every candidate evaluates to `3`, the maximizing loop returns the
first candidate with score `3`. -/
theorem maxLoop_first3 (rec : State → Int → Int → Int) (s : State)
    (m0 : Nat) (rest : List Nat) (best a b : Int)
    (hrec : ∀ m ∈ m0 :: rest, ∀ a2 b2, rec (s.set m 1) a2 b2 = 3) :
    maxLoop rec s (m0 :: rest) INT_MIN best a b = (3, (m0 : Int)) := by
  have he : rec (s.set m0 1) a b = 3 := hrec m0 (List.mem_cons_self m0 rest) a b
  have hlt : INT_MIN < 3 := by norm_num [INT_MIN]
  simp only [maxLoop, he, hlt, if_true]
  split
  · rfl
  · exact maxLoop_stay rec s rest (m0 : Int) (max a 3) b
      fun m2 hm2 => hrec m2 (List.mem_cons_of_mem m0 hm2)

/-- Mirror of `maxLoop_first3` for the minimizing loop. -/
theorem minLoop_first3 (rec : State → Int → Int → Int) (s : State)
    (m0 : Nat) (rest : List Nat) (best a b : Int)
    (hrec : ∀ m ∈ m0 :: rest, ∀ a2 b2, rec (s.set m 2) a2 b2 = 3) :
    minLoop rec s (m0 :: rest) INT_MAX best a b = (3, (m0 : Int)) := by
  have he : rec (s.set m0 2) a b = 3 := hrec m0 (List.mem_cons_self m0 rest) a b
  have hlt : (3 : Int) < INT_MAX := by norm_num [INT_MAX]
  simp only [minLoop, he, hlt, if_true]
  split
  · rfl
  · exact minLoop_stay rec s rest (m0 : Int) a (min b 3)
      fun m2 hm2 => hrec m2 (List.mem_cons_of_mem m0 hm2)

/-- On a board whose occupied-cell count plus the remaining depth does not
reach five, no five-in-row can appear during the search, so `minimax`
returns the constant score `DRAW = 3` with the first candidate as move
(or the constant move `3` at depth zero), for every window and both
plies. -/
theorem minimax_quiet (w h : Nat) :
    ∀ (d : Nat) (s : State) (mx : Bool) (a b : Int),
      s.countP (fun c => !(c == 0)) + d ≤ 4 → 4 < s.length →
      minimax w h d s mx a b =
        (3, if d = 0 then 3 else ((getPossibleMoves w h s).headD 0 : Int)) := by
  intro d
  induction d with
  | zero =>
      intro s mx a b hcnt hlen
      have h1 : checkWinCondition w h s 1 = false :=
        checkWin_false_of_few w h s 1 (by norm_num) (by omega)
      have h2 : checkWinCondition w h s 2 = false :=
        checkWin_false_of_few w h s 2 (by norm_num) (by omega)
      simp [minimax, h1, h2]
  | succ d ih =>
      intro s mx a b hcnt hlen
      have h1 : checkWinCondition w h s 1 = false :=
        checkWin_false_of_few w h s 1 (by norm_num) (by omega)
      have h2 : checkWinCondition w h s 2 = false :=
        checkWin_false_of_few w h s 2 (by norm_num) (by omega)
      have hfull : isBoardFull s = false := by
        cases hfb : isBoardFull s
        · rfl
        · rw [isBoardFull, List.all_eq_true] at hfb
          have hcp := List.countP_eq_length.2 hfb
          omega
      have hchild : ∀ (m : Nat) (pl : Int) (mx2 : Bool) (a2 b2 : Int),
          (minimax w h d (s.set m pl) mx2 a2 b2).1 = 3 := by
        intro m pl mx2 a2 b2
        have hc2 : (s.set m pl).countP (fun c => !(c == 0)) + d ≤ 4 := by
          have := countP_set_le s m pl fun c => !(c == 0)
          omega
        have hl2 : 4 < (s.set m pl).length := by
          rw [List.length_set]; exact hlen
        rw [ih (s.set m pl) mx2 a2 b2 hc2 hl2]
      obtain ⟨m0, rest, hm⟩ :=
        List.exists_cons_of_ne_nil (getPossibleMoves_ne_nil w h s)
      have hne : (getPossibleMoves w h s).isEmpty = false := by
        rw [hm]; rfl
      cases mx
      · simp only [minimax, h1, h2, hfull, Bool.false_eq_true, if_false,
          hne, Bool.false_eq_true, if_false, hm]
        rw [minLoop_first3 _ s m0 rest (-1) a b
          fun m hmem a2 b2 => hchild m 2 true a2 b2]
        have : ¬((m0 : Int) < 0) := by
          simp
        simp [this, Nat.succ_ne_zero]
      · simp only [minimax, h1, h2, hfull, Bool.false_eq_true, if_false,
          hne, Bool.false_eq_true, if_false, hm]
        rw [maxLoop_first3 _ s m0 rest (-1) a b
          fun m hmem a2 b2 => hchild m 1 false a2 b2]
        have : ¬((m0 : Int) < 0) := by
          simp
        simp [this, Nat.succ_ne_zero]

/-! ## Non-negativity of the returned move index -/

/-- Every pair returned by `minimax` carries a non-negative move index:
the base cases use `0` or `3` and the loops fall back to the first
candidate when `bestMoveFound` is still `-1`. -/
theorem minimax_move_nonneg (w h : Nat) (d : Nat) (s : State) (mx : Bool)
    (a b : Int) : 0 ≤ (minimax w h d s mx a b).2 := by
  cases d with
  | zero =>
      simp only [minimax]
      split
      · norm_num
      · split <;> norm_num
  | succ d =>
      simp only [minimax]
      split
      · norm_num
      · split
        · norm_num
        · split
          · norm_num
          · split
            · split
              · norm_num
              · split
                · exact Int.natCast_nonneg _
                · omega
            · split
              · norm_num
              · split
                · exact Int.natCast_nonneg _
                · omega

/-- Candidate list of the empty 20 by 20 board: the neighbor filter finds
nothing, so the unconditional center fallback `10*20+10 = 210` is
returned. -/
theorem gpm_empty20 :
    getPossibleMoves 20 20 (List.replicate 400 (0 : Int)) = [210] := by decide

/-- Claim C3 (code side): on the empty 20 by 20 board, BEGIN runs minimax,
gets the quiet-board result `(DRAW, 210) = (3, 210)`, and
`checkAlgorithmReturn` rejects it because the score equals `DRAW`, so the
handler returns with the board untouched and only an error emitted: no
stone is placed and no coordinate is sent. -/
theorem handleBegin_empty_board_sends_error :
    handleBegin 20 20 (List.replicate 400 (0 : Int)) =
      (List.replicate 400 (0 : Int), none) := by
  have hmm : minimax 20 20 3 (List.replicate 400 (0 : Int)) true INT_MIN
      INT_MAX = (3, 210) := by
    rw [minimax_quiet 20 20 3 _ true INT_MIN INT_MAX (by decide) (by decide)]
    rw [gpm_empty20]
    norm_num
  simp only [handleBegin, hmm]
  simp [checkAlgorithmReturn]

/-- Characterization of `handleTurn` on in-range coordinates: the final
goban is the input goban with OPPONENT written at `(x, y)` and nothing
else, and the reply is the decomposed minimax move, always emitted because
the move index is non-negative. -/
theorem handleTurn_eq (w h : Nat) (g : State) (x y : Int)
    (hx : 0 ≤ x) (hxw : x < (w : Int)) (hy : 0 ≤ y) (hyh : y < (h : Int)) :
    handleTurn w h g x y =
      (g.set (y * (w : Int) + x).toNat 2,
       some ((minimax w h 3 (g.set (y * (w : Int) + x).toNat 2) true INT_MIN
          INT_MAX).2 % (w : Int),
        (minimax w h 3 (g.set (y * (w : Int) + x).toNat 2) true INT_MIN
          INT_MAX).2 / (w : Int))) := by
  have hw0 : (0 : Int) < (w : Int) := by omega
  have hm := minimax_move_nonneg w h 3 (g.set (y * (w : Int) + x).toNat 2)
    true INT_MIN INT_MAX
  have hm1 : 0 ≤ (minimax w h 3 (g.set (y * (w : Int) + x).toNat 2) true
      INT_MIN INT_MAX).2 % (w : Int) := Int.emod_nonneg _ (by omega)
  have hm2 : 0 ≤ (minimax w h 3 (g.set (y * (w : Int) + x).toNat 2) true
      INT_MIN INT_MAX).2 / (w : Int) := Int.ediv_nonneg hm (by omega)
  simp only [handleTurn]
  rw [if_neg (by push_neg; exact ⟨hx, hxw, hy, hyh⟩)]
  rw [sendCoordinate, if_neg (by push_neg; exact ⟨hm1, hm2⟩)]

/-- Claim C1 (code side): TURN on the empty 20 by 20 board at `(5, 5)`
writes OPPONENT at index `5*20+5 = 105` and emits a coordinate pair, but
the final board is exactly the original with that single OPPONENT stone:
no cell holds SELF after the handler returns, so in particular the replied
cell is not SELF. -/
theorem handleTurn_never_places_self_stone :
    (handleTurn 20 20 (List.replicate 400 (0 : Int)) 5 5).1 =
      (List.replicate 400 (0 : Int)).set 105 2 ∧
    ((handleTurn 20 20 (List.replicate 400 (0 : Int)) 5 5).1.all
      fun c => !(c == 1)) = true ∧
    ∃ rx ry, (handleTurn 20 20 (List.replicate 400 (0 : Int)) 5 5).2 =
      some (rx, ry) ∧ 0 ≤ rx ∧ 0 ≤ ry := by
  have hred := handleTurn_eq 20 20 (List.replicate 400 (0 : Int)) 5 5
    (by norm_num) (by norm_num) (by norm_num) (by norm_num)
  have ht : ((5 : Int) * ((20 : Nat) : Int) + 5).toNat = 105 := by decide
  rw [ht] at hred
  have hall : ((List.replicate 400 (0 : Int)).set 105 2).all
      (fun c => !(c == 1)) = true := by
    rw [List.all_eq_true]
    intro c hc
    rcases List.mem_or_eq_of_mem_set hc with hc2 | rfl
    · rw [List.eq_of_mem_replicate hc2]
      decide
    · decide
  have hm := minimax_move_nonneg 20 20 3
    ((List.replicate 400 (0 : Int)).set 105 2) true INT_MIN INT_MAX
  refine ⟨by rw [hred], by rw [hred]; exact hall, ?_⟩
  rw [hred]
  exact ⟨_, _, rfl, Int.emod_nonneg _ (by norm_num),
    Int.ediv_nonneg hm (by norm_num)⟩

/-- Claim C2 (code side): the `minimax` base cases return the raw
`WIN_CONDITION` enum constants.  A SELF five-in-row returns `(1, 0)`;
an OPPONENT five-in-row returns `(2, 0)` whose score is positive (and
larger than the SELF-win score), not a large negative value; depth 0 on a
quiet board returns the constant pair `(3, 3)` with no evaluation. -/
theorem minimax_base_cases_return_enum_constants :
    minimax 5 5 3 (List.replicate 5 (1 : Int) ++ List.replicate 20 0) true
      INT_MIN INT_MAX = (1, 0) ∧
    minimax 5 5 3 (List.replicate 5 (2 : Int) ++ List.replicate 20 0) true
      INT_MIN INT_MAX = (2, 0) ∧
    0 < (minimax 5 5 3 (List.replicate 5 (2 : Int) ++ List.replicate 20 0)
      true INT_MIN INT_MAX).1 ∧
    minimax 5 5 0 (List.replicate 25 (0 : Int)) true INT_MIN INT_MAX =
      (3, 3) := by
  refine ⟨by decide, by decide, by decide, by decide⟩

/-- Claim C5 (code side): DONE on a board where OPPONENT already has five
in a row runs minimax, which returns its no-move constant pair `(2, 0)`;
`handleDone` transmits the move component unchecked, emitting `0,0` as the
engine move. -/
theorem handleDone_transmits_unchecked_sentinel :
    handleDone 20 20 (List.replicate 5 (2 : Int) ++ List.replicate 395 0) =
      (List.replicate 5 (2 : Int) ++ List.replicate 395 0, some (0, 0)) := by
  decide

/-! ## Resize semantics (claim C4) -/

/-- Length after a `resize`. -/
theorem listResize_length (l : List Int) (n : Nat) (v : Int) :
    (listResize l n v).length = n := by
  rw [listResize]
  split
  · rw [List.length_take]
    omega
  · rw [List.length_append, List.length_replicate]
    omega

/-- A `resize` preserves the cells that survive it. -/
theorem cellGet_listResize_old (l : List Int) (n : Nat) (v : Int) (i : Nat)
    (hil : i < l.length) (hin : i < n) :
    cellGet (listResize l n v) i = cellGet l i := by
  rw [listResize]
  split
  · rw [cellGet, cellGet, List.getD_eq_getElem _ _ (by rw [List.length_take]; omega),
      List.getElem_take, List.getD_eq_getElem _ _ hil]
  · rw [cellGet, cellGet, List.getD_eq_getElem _ _ (by rw [List.length_append]; omega),
      List.getElem_append_left hil, List.getD_eq_getElem _ _ hil]

/-- The cells added by a growing `resize` hold the fill value `0`. -/
theorem cellGet_listResize_new (l : List Int) (n : Nat) (i : Nat)
    (hil : l.length ≤ i) (hin : i < n) :
    cellGet (listResize l n 0) i = 0 := by
  rw [listResize]
  split
  · omega
  · rw [cellGet, List.getD_eq_getElem _ _
      (by rw [List.length_append, List.length_replicate]; omega)]
    rw [List.getElem_append_right hil]
    exact List.getElem_replicate 0 _

/-- Resizing an empty buffer produces an all-`v` buffer. -/
theorem listResize_nil (n : Nat) (v : Int) :
    listResize [] n v = List.replicate n v := by
  rw [listResize]
  split
  · have hn0 : n = 0 := by
      simpa using (by assumption : n ≤ ([] : List Int).length)
    simp [hn0]
  · simp

/-- Claim C4 (amended): START `size` (respectively RECSTART
`width,height`) with all dimensions at least 20 resizes the goban to the
exact new cell count, with all newly created cells EMPTY and the surviving
prefix of the previous contents preserved — not discarded; starting from
an empty goban the result is all-EMPTY. -/
theorem handleStart_recstart_resize_semantics (g : State) (sz : Nat × Nat)
    (n wd ht : Int) (hn : 20 ≤ n) (hw : 20 ≤ wd) (hh : 20 ≤ ht) :
    ((handleStart g sz n).1.1.length = n.toNat * n.toNat ∧
     (∀ i, i < g.length → i < n.toNat * n.toNat →
        cellGet (handleStart g sz n).1.1 i = cellGet g i) ∧
     (∀ i, g.length ≤ i → i < n.toNat * n.toNat →
        cellGet (handleStart g sz n).1.1 i = 0) ∧
     (g = [] → (handleStart g sz n).1.1 =
        List.replicate (n.toNat * n.toNat) 0)) ∧
    ((handleRecstart g sz wd ht).1.1.length = wd.toNat * ht.toNat ∧
     (∀ i, i < g.length → i < wd.toNat * ht.toNat →
        cellGet (handleRecstart g sz wd ht).1.1 i = cellGet g i) ∧
     (∀ i, g.length ≤ i → i < wd.toNat * ht.toNat →
        cellGet (handleRecstart g sz wd ht).1.1 i = 0) ∧
     (g = [] → (handleRecstart g sz wd ht).1.1 =
        List.replicate (wd.toNat * ht.toNat) 0)) := by
  have hs : (handleStart g sz n).1.1 = listResize g (n.toNat * n.toNat) 0 := by
    rw [handleStart, if_neg (by omega)]
  have hr : (handleRecstart g sz wd ht).1.1 =
      listResize g (wd.toNat * ht.toNat) 0 := by
    rw [handleRecstart, if_neg (by push_neg; omega)]
  rw [hs, hr]
  exact ⟨⟨listResize_length _ _ _,
      fun i h1 h2 => cellGet_listResize_old g _ 0 i h1 h2,
      fun i h1 h2 => cellGet_listResize_new g _ i h1 h2,
      fun hg => by rw [hg, listResize_nil]⟩,
    ⟨listResize_length _ _ _,
      fun i h1 h2 => cellGet_listResize_old g _ 0 i h1 h2,
      fun i h1 h2 => cellGet_listResize_new g _ i h1 h2,
      fun hg => by rw [hg, listResize_nil]⟩⟩

/-- Witness for the resize-semantics theorem at a concrete input. -/
theorem handleStart_recstart_resize_semantics_witness :
    (20 : Int) ≤ 20 ∧
    (handleStart [] (0, 0) 20).1.1.length = (20 : Int).toNat * (20 : Int).toNat :=
  ⟨by norm_num,
    (handleStart_recstart_resize_semantics [] (0, 0) 20 20 20 (by norm_num)
      (by norm_num) (by norm_num)).1.1⟩

/-- Claim C4 (counterexample): a stale OPPONENT stone at index 0 of a full
size 20 by 20 goban survives START 20, because `resize` to the same size
preserves the contents: the resulting board is not all-EMPTY. -/
theorem handleStart_keeps_stale_stone :
    cellGet (handleStart ((2 : Int) :: List.replicate 399 0) (20, 20) 20).1.1
      0 = 2 ∧ (2 : Int) ≠ 0 := by
  refine ⟨?_, by norm_num⟩
  decide

/-! ## BOARD bulk-load entry (claim C9) -/

/-- Claim C9 (amended): one BOARD entry keeps every cell in
`{EMPTY, SELF, OPPONENT}` provided the parsed owner is itself in
`{0, 1, 2}` or is the rejected value `3`; the handler checks nothing else
about the owner. -/
theorem handleBoard_domain_preserved_for_valid_owners (w h : Nat) (g : State)
    (x y p : Int) (hg : ∀ c ∈ g, c = 0 ∨ c = 1 ∨ c = 2)
    (hp : p = 0 ∨ p = 1 ∨ p = 2 ∨ p = 3) :
    ∀ c ∈ (handleBoard w h g x y p).1, c = 0 ∨ c = 1 ∨ c = 2 := by
  intro c hc
  rw [handleBoard] at hc
  split_ifs at hc with h1 h2
  · exact hg c hc
  · exact hg c hc
  · rcases List.mem_or_eq_of_mem_set hc with hc2 | rfl
    · exact hg c hc2
    · rcases hp with rfl | rfl | rfl | rfl
      · exact Or.inl rfl
      · exact Or.inr (Or.inl rfl)
      · exact Or.inr (Or.inr rfl)
      · exact absurd rfl h2

/-- Witness for the BOARD domain theorem at a concrete entry. -/
theorem handleBoard_domain_preserved_for_valid_owners_witness :
    (1 : Int) = 0 ∨ (1 : Int) = 1 ∨ (1 : Int) = 2 :=
  handleBoard_domain_preserved_for_valid_owners 20 20 [0] 0 0 1
    (by decide) (by norm_num) 1 (by decide)

/-- Claim C9 (counterexample): the BOARD entry handler rejects only owner
`3`; owner `4` passes the check and is written to the cell, leaving a cell
outside `{EMPTY, SELF, OPPONENT}`. -/
theorem handleBoard_writes_owner_four :
    cellGet (handleBoard 20 20 (List.replicate 400 (0 : Int)) 0 0 4).1 0 = 4 ∧
    ¬((4 : Int) = 0 ∨ (4 : Int) = 1 ∨ (4 : Int) = 2) := by
  refine ⟨?_, by norm_num⟩
  decide

/-! ## The checkTerminator out-of-bounds read (claim C10) -/

/-- Claim C10: a line consisting of exactly the keyword END (terminated
only by the newline that `getline` consumes) produces an empty payload for
its handler; `checkTerminator` then reads index `size() - 1`, which
underflows in `size_t` arithmetic to `2^64 - 1`, out of bounds of the
empty string; for every non-empty payload the same read is in bounds. -/
theorem checkTerminator_empty_payload_index_underflow :
    keywordMatches ("END".toList) ("END".toList) = true ∧
    payloadAfter ("END".toList) ("END".toList) = [] ∧
    checkTerminatorReadIndex [] = 2 ^ 64 - 1 ∧
    ¬(checkTerminatorReadIndex [] < ([] : List Char).length) ∧
    ∀ p : List Char, p ≠ [] → checkTerminatorReadIndex p < p.length := by
  refine ⟨by decide, by decide, by decide, by decide, ?_⟩
  intro p hp
  have hlen : 1 ≤ p.length := List.length_pos.2 hp
  rw [checkTerminatorReadIndex]
  have he : p.length + 2 ^ 64 - 1 = (p.length - 1) + 1 * 2 ^ 64 := by omega
  rw [he, Nat.add_mul_mod_self_right]
  calc (p.length - 1) % 2 ^ 64 ≤ p.length - 1 := Nat.mod_le _ _
    _ < p.length := by omega

/-- Witness for the in-bounds part of the checkTerminator theorem. -/
theorem checkTerminator_empty_payload_index_underflow_witness :
    checkTerminatorReadIndex ("E".toList) < ("E".toList).length :=
  checkTerminator_empty_payload_index_underflow.2.2.2.2 ("E".toList)
    (by decide)

/-! ## Candidate generation (claim C8) -/

/-- Modelled from the spec: the cell at `idx` (row `idx / w`, column
`idx % w`) has at least one occupied cell within Chebyshev distance 1:
an in-bounds grid position, different from the cell itself, whose row and
column offsets both lie in `[-1, 1]`, holding a nonzero value. -/
def specHasNeighbor (w h : Nat) (s : State) (idx : Nat) : Prop :=
  ∃ nx ny : Int,
    0 ≤ nx ∧ nx < (h : Int) ∧ 0 ≤ ny ∧ ny < (w : Int) ∧
    ¬(nx = ((idx / w : Nat) : Int) ∧ ny = ((idx % w : Nat) : Int)) ∧
    -1 ≤ nx - ((idx / w : Nat) : Int) ∧ nx - ((idx / w : Nat) : Int) ≤ 1 ∧
    -1 ≤ ny - ((idx % w : Nat) : Int) ∧ ny - ((idx % w : Nat) : Int) ≤ 1 ∧
    cellGet s (nx * (w : Int) + ny).toNat ≠ 0

/-- The scanned 3 by 3 offset window of `hasNeighbor` with `range = 1`
finds an occupied cell exactly when one exists within Chebyshev
distance 1. -/
theorem hasNeighbor_one_iff (w h : Nat) (s : State) (idx : Nat) :
    hasNeighbor w h s idx 1 = true ↔ specHasNeighbor w h s idx := by
  rw [hasNeighbor, specHasNeighbor]
  simp only [List.any_eq_true, List.mem_range, Nat.cast_one]
  constructor
  · rintro ⟨dxk, hdxk, dyk, hdyk, hcond⟩
    by_cases hz : ((dxk : Int) - 1 = 0 ∧ (dyk : Int) - 1 = 0)
    · rw [if_pos hz] at hcond
      exact absurd hcond (by simp)
    · rw [if_neg hz] at hcond
      simp only [Bool.and_eq_true, decide_eq_true_eq, Bool.not_eq_eq_eq_not,
        Bool.not_true, beq_eq_false_iff_ne, ne_eq] at hcond
      obtain ⟨⟨⟨⟨hb1, hb2⟩, hb3⟩, hb4⟩, hb5⟩ := hcond
      refine ⟨((idx / w : Nat) : Int) + ((dxk : Int) - 1),
        ((idx % w : Nat) : Int) + ((dyk : Int) - 1),
        hb1, hb2, hb3, hb4, ?_, by omega, by omega, by omega, by omega, hb5⟩
      rintro ⟨e1, e2⟩
      exact hz ⟨by omega, by omega⟩
  · rintro ⟨nx, ny, h1, h2, h3, h4, hne, hc1, hc2, hc3, hc4, hval⟩
    refine ⟨(nx - ((idx / w : Nat) : Int) + 1).toNat, by omega,
      (ny - ((idx % w : Nat) : Int) + 1).toNat, by omega, ?_⟩
    have ex : (((nx - ((idx / w : Nat) : Int) + 1).toNat : Int)) - 1 =
        nx - ((idx / w : Nat) : Int) := by omega
    have ey : (((ny - ((idx % w : Nat) : Int) + 1).toNat : Int)) - 1 =
        ny - ((idx % w : Nat) : Int) := by omega
    rw [if_neg (by rintro ⟨e1, e2⟩; exact hne ⟨by omega, by omega⟩)]
    have exx : ((idx / w : Nat) : Int) +
        (((nx - ((idx / w : Nat) : Int) + 1).toNat : Int) - 1) = nx := by omega
    have eyy : ((idx % w : Nat) : Int) +
        (((ny - ((idx % w : Nat) : Int) + 1).toNat : Int) - 1) = ny := by omega
    rw [exx, eyy]
    simp only [Bool.and_eq_true, decide_eq_true_eq, Bool.not_eq_eq_eq_not,
      Bool.not_true, beq_eq_false_iff_ne, ne_eq]
    exact ⟨⟨⟨⟨h1, h2⟩, h3⟩, h4⟩, hval⟩

/-- Claim C8 (amended): the filtered candidate sequence contains exactly
the in-range EMPTY cells with an occupied cell within Chebyshev distance
1, listed in strictly increasing (row-major) index order; when this
sequence is empty, `getPossibleMoves` returns the single center cell
`(height/2)*width + width/2` unconditionally, whether or not that cell is
EMPTY. -/
theorem getPossibleMoves_characterization (w h : Nat) (s : State) :
    (∀ i : Nat, i ∈ (List.range s.length).filter
        (fun i => (cellGet s i == 0) && hasNeighbor w h s i 1) ↔
      i < s.length ∧ cellGet s i = 0 ∧ specHasNeighbor w h s i) ∧
    ((List.range s.length).filter
        (fun i => (cellGet s i == 0) && hasNeighbor w h s i 1)).Pairwise
        (· < ·) ∧
    getPossibleMoves w h s =
      (if (List.range s.length).filter
          (fun i => (cellGet s i == 0) && hasNeighbor w h s i 1) = []
       then [h / 2 * w + w / 2]
       else (List.range s.length).filter
          (fun i => (cellGet s i == 0) && hasNeighbor w h s i 1)) := by
  refine ⟨?_, ?_, ?_⟩
  · intro i
    rw [List.mem_filter, List.mem_range, Bool.and_eq_true, beq_iff_eq,
      hasNeighbor_one_iff]
  · exact List.Pairwise.sublist (List.filter_sublist _)
      (List.pairwise_lt_range _)
  · rw [getPossibleMoves]
    by_cases hE : (List.range s.length).filter
        (fun i => (cellGet s i == 0) && hasNeighbor w h s i 1) = []
    · rw [if_pos (List.isEmpty_iff.2 hE), if_pos hE]
    · rw [if_neg (fun hc => hE (List.isEmpty_iff.1 hc)), if_neg hE]

/-- Claim C8 (counterexample): on a completely full board the filter finds
nothing and the fallback returns the center cell even though it is
occupied — not "the center if EMPTY, else the first EMPTY cell". -/
theorem getPossibleMoves_full_board_returns_occupied_center :
    getPossibleMoves 20 20 (List.replicate 400 (1 : Int)) = [210] ∧
    cellGet (List.replicate 400 (1 : Int)) 210 = 1 ∧ (1 : Int) ≠ 0 := by
  refine ⟨by decide, by decide, by norm_num⟩

/-- Claim C7: the terminal detector returns true exactly when the board
contains a contiguous run of five (hence of 5, 6 or more) cells of the
given owner in one of the four directions, and therefore returns false on
every board whose longest run for that owner has length at most four,
including a run of four blocked at both ends. -/
theorem checkWinCondition_iff_five_run (w h : Nat) (s : State) (p : Int) :
    checkWinCondition w h s p = true ↔ specHasRunFive w h s p :=
  checkWinCondition_true_iff w h s p

/-! ## Alpha-beta equivalence (claim C6): fold characterizations -/

/-- Score of the unpruned maximizing loop as a running-maximum fold. -/
theorem plainMaxLoop_fst (rec : State → Int) (s : State) :
    ∀ (ms : List Nat) (me best : Int),
      (plainMaxLoop rec s ms me best).1 =
        ms.foldl (fun acc m => max acc (rec (s.set m 1))) me := by
  intro ms
  induction ms with
  | nil => intro me best; rfl
  | cons m rest ih =>
      intro me best
      simp only [plainMaxLoop, List.foldl_cons]
      by_cases hlt : me < rec (s.set m 1)
      · rw [if_pos hlt, ih]
        congr 1
        omega
      · rw [if_neg hlt, ih]
        congr 1
        omega

/-- Score of the unpruned minimizing loop as a running-minimum fold. -/
theorem plainMinLoop_fst (rec : State → Int) (s : State) :
    ∀ (ms : List Nat) (me best : Int),
      (plainMinLoop rec s ms me best).1 =
        ms.foldl (fun acc m => min acc (rec (s.set m 2))) me := by
  intro ms
  induction ms with
  | nil => intro me best; rfl
  | cons m rest ih =>
      intro me best
      simp only [plainMinLoop, List.foldl_cons]
      by_cases hlt : rec (s.set m 2) < me
      · rw [if_pos hlt, ih]
        congr 1
        omega
      · rw [if_neg hlt, ih]
        congr 1
        omega

/-- The initial accumulator bounds a running-maximum fold from below. -/
theorem le_foldl_max (g : Nat → Int) :
    ∀ (l : List Nat) (b : Int), b ≤ l.foldl (fun acc m => max acc (g m)) b := by
  intro l
  induction l with
  | nil => intro b; exact le_refl b
  | cons m rest ih =>
      intro b
      calc b ≤ max b (g m) := le_max_left b (g m)
        _ ≤ _ := ih (max b (g m))

/-- A bound on the accumulator and on every entry bounds the fold. -/
theorem foldl_max_le (g : Nat → Int) :
    ∀ (l : List Nat) (b A : Int), b ≤ A → (∀ m ∈ l, g m ≤ A) →
      l.foldl (fun acc m => max acc (g m)) b ≤ A := by
  intro l
  induction l with
  | nil => intro b A hb _; exact hb
  | cons m rest ih =>
      intro b A hb hl
      exact ih (max b (g m)) A
        (max_le hb (hl m (List.mem_cons_self m rest)))
        fun m2 hm2 => hl m2 (List.mem_cons_of_mem m hm2)

/-- Every entry bounds the running-maximum fold from below. -/
theorem mem_le_foldl_max (g : Nat → Int) :
    ∀ (l : List Nat) (b : Int) (m : Nat), m ∈ l →
      g m ≤ l.foldl (fun acc m => max acc (g m)) b := by
  intro l
  induction l with
  | nil => intro b m hm; exact absurd hm (List.not_mem_nil m)
  | cons m0 rest ih =>
      intro b m hm
      rcases List.mem_cons.1 hm with rfl | hm2
      · calc g m ≤ max b (g m) := le_max_right b (g m)
          _ ≤ _ := le_foldl_max g rest (max b (g m))
      · exact ih (max b (g m0)) m hm2

/-- A running-maximum fold exceeding its initial accumulator is realized by
some entry. -/
theorem exists_le_foldl_max (g : Nat → Int) :
    ∀ (l : List Nat) (b c : Int), b < c →
      c ≤ l.foldl (fun acc m => max acc (g m)) b → ∃ m ∈ l, c ≤ g m := by
  intro l
  induction l with
  | nil => intro b c hb hc; exact absurd hc (by simp; omega)
  | cons m rest ih =>
      intro b c hb hc
      by_cases hm : c ≤ g m
      · exact ⟨m, List.mem_cons_self m rest, hm⟩
      · have hb2 : max b (g m) < c := by omega
        obtain ⟨m2, hm2, hc2⟩ := ih (max b (g m)) c hb2 hc
        exact ⟨m2, List.mem_cons_of_mem m hm2, hc2⟩

/-- Two accumulators both dominated by `A` produce the same
running-maximum fold whenever the fold rises strictly above `A`. -/
theorem foldl_max_congr (g : Nat → Int) :
    ∀ (l : List Nat) (b b2 A : Int), b ≤ A → b2 ≤ A →
      A < l.foldl (fun acc m => max acc (g m)) b →
      l.foldl (fun acc m => max acc (g m)) b =
        l.foldl (fun acc m => max acc (g m)) b2 := by
  intro l
  induction l with
  | nil =>
      intro b b2 A hb hb2 hfold
      simp only [List.foldl_nil] at hfold ⊢
      omega
  | cons m rest ih =>
      intro b b2 A hb hb2 hfold
      simp only [List.foldl_cons] at hfold ⊢
      by_cases hm : g m ≤ A
      · exact ih (max b (g m)) (max b2 (g m)) A (max_le hb hm)
          (max_le hb2 hm) hfold
      · have e1 : max b (g m) = g m := by omega
        have e2 : max b2 (g m) = g m := by omega
        rw [e1] at hfold ⊢
        rw [e2]

/-- The initial accumulator bounds a running-minimum fold from above. -/
theorem foldl_min_le (g : Nat → Int) :
    ∀ (l : List Nat) (b : Int), l.foldl (fun acc m => min acc (g m)) b ≤ b := by
  intro l
  induction l with
  | nil => intro b; exact le_refl b
  | cons m rest ih =>
      intro b
      calc _ ≤ min b (g m) := ih (min b (g m))
        _ ≤ b := min_le_left b (g m)

/-- A lower bound on the accumulator and on every entry bounds the fold. -/
theorem le_foldl_min (g : Nat → Int) :
    ∀ (l : List Nat) (b A : Int), A ≤ b → (∀ m ∈ l, A ≤ g m) →
      A ≤ l.foldl (fun acc m => min acc (g m)) b := by
  intro l
  induction l with
  | nil => intro b A hb _; exact hb
  | cons m rest ih =>
      intro b A hb hl
      exact ih (min b (g m)) A
        (le_min hb (hl m (List.mem_cons_self m rest)))
        fun m2 hm2 => hl m2 (List.mem_cons_of_mem m hm2)

/-- Every entry bounds the running-minimum fold from above. -/
theorem foldl_min_le_mem (g : Nat → Int) :
    ∀ (l : List Nat) (b : Int) (m : Nat), m ∈ l →
      l.foldl (fun acc m => min acc (g m)) b ≤ g m := by
  intro l
  induction l with
  | nil => intro b m hm; exact absurd hm (List.not_mem_nil m)
  | cons m0 rest ih =>
      intro b m hm
      rcases List.mem_cons.1 hm with rfl | hm2
      · calc _ ≤ min b (g m) := foldl_min_le g rest (min b (g m))
          _ ≤ g m := min_le_right b (g m)
      · exact ih (min b (g m0)) m hm2

/-- A running-minimum fold dropping below its initial accumulator is
realized by some entry. -/
theorem exists_foldl_min_le (g : Nat → Int) :
    ∀ (l : List Nat) (b c : Int), c < b →
      l.foldl (fun acc m => min acc (g m)) b ≤ c → ∃ m ∈ l, g m ≤ c := by
  intro l
  induction l with
  | nil => intro b c hb hc; exact absurd hc (by simp; omega)
  | cons m rest ih =>
      intro b c hb hc
      by_cases hm : g m ≤ c
      · exact ⟨m, List.mem_cons_self m rest, hm⟩
      · have hb2 : c < min b (g m) := by omega
        obtain ⟨m2, hm2, hc2⟩ := ih (min b (g m)) c hb2 hc
        exact ⟨m2, List.mem_cons_of_mem m hm2, hc2⟩

/-- Two accumulators both dominating `A` produce the same running-minimum
fold whenever the fold drops strictly below `A`. -/
theorem foldl_min_congr (g : Nat → Int) :
    ∀ (l : List Nat) (b b2 A : Int), A ≤ b → A ≤ b2 →
      l.foldl (fun acc m => min acc (g m)) b < A →
      l.foldl (fun acc m => min acc (g m)) b =
        l.foldl (fun acc m => min acc (g m)) b2 := by
  intro l
  induction l with
  | nil =>
      intro b b2 A hb hb2 hfold
      simp only [List.foldl_nil] at hfold ⊢
      omega
  | cons m rest ih =>
      intro b b2 A hb hb2 hfold
      simp only [List.foldl_cons] at hfold ⊢
      by_cases hm : A ≤ g m
      · exact ih (min b (g m)) (min b2 (g m)) A (le_min hb hm)
          (le_min hb2 hm) hfold
      · have e1 : min b (g m) = g m := by omega
        have e2 : min b2 (g m) = g m := by omega
        rw [e1] at hfold ⊢
        rw [e2]

/-- Bounds for the unpruned maximizing loop started at `INT_MIN` on a
nonempty candidate list whose evaluations lie in `[1, 3]`. -/
theorem plainMax_result_bounds (pv : State → Int) (s : State) (ms : List Nat)
    (hms : ms ≠ []) (hb : ∀ m ∈ ms, 1 ≤ pv (s.set m 1) ∧ pv (s.set m 1) ≤ 3) :
    1 ≤ (plainMaxLoop pv s ms INT_MIN (-1)).1 ∧
      (plainMaxLoop pv s ms INT_MIN (-1)).1 ≤ 3 := by
  rw [plainMaxLoop_fst]
  obtain ⟨m0, rest, rfl⟩ := List.exists_cons_of_ne_nil hms
  constructor
  · calc (1 : Int) ≤ pv (s.set m0 1) := (hb m0 (List.mem_cons_self m0 rest)).1
      _ ≤ _ := mem_le_foldl_max _ _ INT_MIN m0 (List.mem_cons_self m0 rest)
  · exact foldl_max_le _ _ INT_MIN 3 (by norm_num [INT_MIN])
      fun m hm => (hb m hm).2

/-- Bounds for the unpruned minimizing loop started at `INT_MAX`. -/
theorem plainMin_result_bounds (pv : State → Int) (s : State) (ms : List Nat)
    (hms : ms ≠ []) (hb : ∀ m ∈ ms, 1 ≤ pv (s.set m 2) ∧ pv (s.set m 2) ≤ 3) :
    1 ≤ (plainMinLoop pv s ms INT_MAX (-1)).1 ∧
      (plainMinLoop pv s ms INT_MAX (-1)).1 ≤ 3 := by
  rw [plainMinLoop_fst]
  obtain ⟨m0, rest, rfl⟩ := List.exists_cons_of_ne_nil hms
  constructor
  · exact le_foldl_min _ _ INT_MAX 1 (by norm_num [INT_MAX])
      fun m hm => (hb m hm).1
  · calc _ ≤ pv (s.set m0 2) :=
        foldl_min_le_mem _ _ INT_MAX m0 (List.mem_cons_self m0 rest)
      _ ≤ 3 := (hb m0 (List.mem_cons_self m0 rest)).2

/-- Scores of the unpruned search lie in the enum range `[1, 3]`. -/
theorem unpruned_fst_bounds (w h : Nat) :
    ∀ (d : Nat) (s : State) (mx : Bool),
      1 ≤ (minimaxUnpruned w h d s mx).1 ∧
        (minimaxUnpruned w h d s mx).1 ≤ 3 := by
  intro d
  induction d with
  | zero =>
      intro s mx
      simp only [minimaxUnpruned]
      split_ifs <;> norm_num
  | succ d ih =>
      intro s mx
      simp only [minimaxUnpruned]
      split_ifs with hw1 hw2 hfull hmx hE1 hf1 hE2 hf2
      · norm_num
      · norm_num
      · norm_num
      · norm_num
      · exact plainMax_result_bounds _ s _
          (fun hc => hE1 (List.isEmpty_iff.2 hc))
          fun m hm => ih (s.set m 1) false
      · exact plainMax_result_bounds _ s _
          (fun hc => hE1 (List.isEmpty_iff.2 hc))
          fun m hm => ih (s.set m 1) false
      · norm_num
      · exact plainMin_result_bounds _ s _
          (fun hc => hE2 (List.isEmpty_iff.2 hc))
          fun m hm => ih (s.set m 2) true
      · exact plainMin_result_bounds _ s _
          (fun hc => hE2 (List.isEmpty_iff.2 hc))
          fun m hm => ih (s.set m 2) true

/-! ## Alpha-beta equivalence (claim C6): pruned-loop window lemmas -/

/-- Fail-soft upper bound for the pruned maximizing loop: if the incoming
alpha, the running maximum and all remaining child values are dominated by
`A < beta`, so is the loop result. `hrec` packages the window soundness of
the recursive evaluation against the reference value `pv`. -/
theorem maxLoop_fst_le (rec : State → Int → Int → Int) (pv : State → Int)
    (s : State)
    (hrec : ∀ st a2 b2, a2 < b2 →
      (a2 < pv st → pv st < b2 → rec st a2 b2 = pv st) ∧
      (pv st ≤ a2 → rec st a2 b2 ≤ a2) ∧
      (b2 ≤ pv st → b2 ≤ rec st a2 b2)) :
    ∀ (ms : List Nat) (me best a A b : Int), a ≤ A → me ≤ A → A < b →
      (∀ m ∈ ms, pv (s.set m 1) ≤ A) →
      (maxLoop rec s ms me best a b).1 ≤ A := by
  intro ms
  induction ms with
  | nil => intro me best a A b _ hme _ _; exact hme
  | cons m rest ih =>
      intro me best a A b ha hme hab hl
      have hwA : pv (s.set m 1) ≤ A := hl m (List.mem_cons_self m rest)
      have haltb : a < b := by omega
      have heval : rec (s.set m 1) a b ≤ A := by
        by_cases hpa : pv (s.set m 1) ≤ a
        · exact le_trans ((hrec (s.set m 1) a b haltb).2.1 hpa) ha
        · have := (hrec (s.set m 1) a b haltb).1 (by omega) (by omega)
          omega
      have hme2 : (if me < rec (s.set m 1) a b then rec (s.set m 1) a b
          else me) ≤ A := by
        split <;> omega
      simp only [maxLoop]
      rw [if_neg (show ¬ b ≤ max a (rec (s.set m 1) a b) by omega)]
      exact ih _ _ _ A b (by omega) hme2 hab
        fun m2 hm2 => hl m2 (List.mem_cons_of_mem m hm2)

/-- Fail-soft lower bound for the pruned maximizing loop: once some child
value (or the running maximum itself) reaches `beta`, the loop result
reaches `beta`. -/
theorem maxLoop_fst_ge (rec : State → Int → Int → Int) (pv : State → Int)
    (s : State)
    (hrec : ∀ st a2 b2, a2 < b2 →
      (a2 < pv st → pv st < b2 → rec st a2 b2 = pv st) ∧
      (pv st ≤ a2 → rec st a2 b2 ≤ a2) ∧
      (b2 ≤ pv st → b2 ≤ rec st a2 b2)) :
    ∀ (ms : List Nat) (me best a b : Int), a < b →
      ((∃ m ∈ ms, b ≤ pv (s.set m 1)) ∨ b ≤ me) →
      b ≤ (maxLoop rec s ms me best a b).1 := by
  intro ms
  induction ms with
  | nil =>
      intro me best a b _ hd
      rcases hd with ⟨m, hm, _⟩ | hme
      · exact absurd hm (List.not_mem_nil m)
      · exact hme
  | cons m rest ih =>
      intro me best a b hab hd
      simp only [maxLoop]
      by_cases hbrk : b ≤ max a (rec (s.set m 1) a b)
      · rw [if_pos hbrk]
        have heb : b ≤ rec (s.set m 1) a b := by omega
        show b ≤ (if me < rec (s.set m 1) a b then rec (s.set m 1) a b
          else me)
        split <;> omega
      · rw [if_neg hbrk]
        have hab2 : max a (rec (s.set m 1) a b) < b := by omega
        apply ih _ _ _ b hab2
        rcases hd with ⟨m2, hm2, hp⟩ | hme
        · rcases List.mem_cons.1 hm2 with rfl | hm3
          · exact absurd ((hrec (s.set m2 1) a b hab).2.2 hp) (by omega)
          · exact Or.inl ⟨m2, hm3, hp⟩
        · refine Or.inr ?_
          split <;> omega

/-- Exact-tracking lemma for the pruned maximizing loop.  When every
remaining child value stays below `beta`, the loop state keeps the
invariant "alpha equals the original alpha with the running maximum
clipped at it" and the loop computes the same running maximum as the
unpruned fold: below `alpha` the result stays below `alpha`, and above
`alpha` the result is exactly the fold. -/
theorem maxLoop_fst_exact (rec : State → Int → Int → Int) (pv : State → Int)
    (s : State)
    (hrec : ∀ st a2 b2, a2 < b2 →
      (a2 < pv st → pv st < b2 → rec st a2 b2 = pv st) ∧
      (pv st ≤ a2 → rec st a2 b2 ≤ a2) ∧
      (b2 ≤ pv st → b2 ≤ rec st a2 b2)) :
    ∀ (ms : List Nat) (me best a al b : Int), al < b → me < b →
      ((a = al ∧ me ≤ al) ∨ (a = me ∧ al < me) ∨
        (a = al ∧ me = INT_MIN ∧ al < INT_MIN)) →
      (∀ m ∈ ms, pv (s.set m 1) < b) →
      (∀ m ∈ ms, 1 ≤ pv (s.set m 1)) →
      ((ms.foldl (fun acc m => max acc (pv (s.set m 1))) me ≤ al →
          (maxLoop rec s ms me best a b).1 ≤ al) ∧
       (al < ms.foldl (fun acc m => max acc (pv (s.set m 1))) me →
          (maxLoop rec s ms me best a b).1 =
            ms.foldl (fun acc m => max acc (pv (s.set m 1))) me)) := by
  intro ms
  induction ms with
  | nil =>
      intro me best a al b _ _ hinv _ _
      constructor
      · intro hv
        rcases hinv with ⟨rfl, hme⟩ | ⟨rfl, hme⟩ | ⟨rfl, hme, hal⟩ <;>
          exact hv
      · intro _
        rfl
  | cons m rest ih =>
      intro me best a al b hab hmeb hinv hl hp
      have hwb : pv (s.set m 1) < b := hl m (List.mem_cons_self m rest)
      have hw1 : 1 ≤ pv (s.set m 1) := hp m (List.mem_cons_self m rest)
      have hl2 : ∀ m2 ∈ rest, pv (s.set m2 1) < b :=
        fun m2 hm2 => hl m2 (List.mem_cons_of_mem m hm2)
      have hp2 : ∀ m2 ∈ rest, 1 ≤ pv (s.set m2 1) :=
        fun m2 hm2 => hp m2 (List.mem_cons_of_mem m hm2)
      simp only [maxLoop, List.foldl_cons]
      rcases hinv with ⟨ha, hme⟩ | ⟨ha, hme⟩ | ⟨ha, hme, hal⟩
      · -- invariant D1: a = al and me ≤ al
        rw [ha]
        by_cases hw : pv (s.set m 1) ≤ al
        · have hE : rec (s.set m 1) al b ≤ al := (hrec (s.set m 1) al b hab).2.1 hw
          rw [if_neg (show ¬ b ≤ max al (rec (s.set m 1) al b) by omega)]
          have ha2 : max al (rec (s.set m 1) al b) = al := by omega
          rw [ha2]
          have hme2 : (if me < rec (s.set m 1) al b then rec (s.set m 1) al b
              else me) ≤ al := by split <;> omega
          have hbase : max me (pv (s.set m 1)) ≤ al := by omega
          have hihr := ih _ (if me < rec (s.set m 1) al b then (m : Int)
              else best) al al b hab (by omega) (Or.inl ⟨rfl, hme2⟩) hl2 hp2
          constructor
          · intro hV
            apply hihr.1
            exact foldl_max_le _ rest _ al hme2 fun m2 hm2 =>
              le_trans (mem_le_foldl_max _ rest _ m2 hm2) hV
          · intro hV
            have hVe := foldl_max_congr (fun m2 => pv (s.set m2 1)) rest
              (max me (pv (s.set m 1)))
              (if me < rec (s.set m 1) al b then rec (s.set m 1) al b else me)
              al hbase hme2 hV
            rw [hVe] at hV ⊢
            exact hihr.2 hV
        · -- al < child value: exact evaluation, running maximum jumps to it
          have hE : rec (s.set m 1) al b = pv (s.set m 1) :=
            (hrec (s.set m 1) al b hab).1 (by omega) hwb
          have hmew : me < pv (s.set m 1) := by omega
          rw [if_neg (show ¬ b ≤ max al (rec (s.set m 1) al b) by omega)]
          have hme2 : (if me < rec (s.set m 1) al b then rec (s.set m 1) al b
              else me) = pv (s.set m 1) := by rw [hE, if_pos hmew]
          have hbest2 : (if me < rec (s.set m 1) al b then (m : Int)
              else best) = (m : Int) := by rw [hE, if_pos hmew]
          have ha2 : max al (rec (s.set m 1) al b) = pv (s.set m 1) := by
            omega
          rw [hme2, hbest2, ha2]
          have hbase : max me (pv (s.set m 1)) = pv (s.set m 1) := by omega
          rw [hbase]
          have hihr := ih (pv (s.set m 1)) (m : Int) (pv (s.set m 1)) al b hab hwb
            (Or.inr (Or.inl ⟨rfl, by omega⟩)) hl2 hp2
          constructor
          · intro hV
            have := le_foldl_max (fun m2 => pv (s.set m2 1)) rest
              (pv (s.set m 1))
            omega
          · intro hV
            exact hihr.2 hV
      · -- invariant D2: a = me and al < me
        rw [ha]
        by_cases hw : pv (s.set m 1) ≤ me
        · have hE : rec (s.set m 1) me b ≤ me := (hrec (s.set m 1) me b hmeb).2.1 hw
          rw [if_neg (show ¬ b ≤ max me (rec (s.set m 1) me b) by omega)]
          have hme2 : (if me < rec (s.set m 1) me b then rec (s.set m 1) me b
              else me) = me := if_neg (by omega)
          have hbest2 : (if me < rec (s.set m 1) me b then (m : Int)
              else best) = best := if_neg (by omega)
          have ha2 : max me (rec (s.set m 1) me b) = me := by omega
          rw [hme2, hbest2, ha2]
          have hbase : max me (pv (s.set m 1)) = me := by omega
          rw [hbase]
          have hihr := ih me best me al b hab hmeb
            (Or.inr (Or.inl ⟨rfl, hme⟩)) hl2 hp2
          constructor
          · intro hV
            have := le_foldl_max (fun m2 => pv (s.set m2 1)) rest me
            omega
          · intro hV
            exact hihr.2 hV
        · have hE : rec (s.set m 1) me b = pv (s.set m 1) :=
            (hrec (s.set m 1) me b hmeb).1 (by omega) hwb
          have hmew : me < pv (s.set m 1) := by omega
          rw [if_neg (show ¬ b ≤ max me (rec (s.set m 1) me b) by omega)]
          have hme2 : (if me < rec (s.set m 1) me b then rec (s.set m 1) me b
              else me) = pv (s.set m 1) := by rw [hE, if_pos hmew]
          have hbest2 : (if me < rec (s.set m 1) me b then (m : Int)
              else best) = (m : Int) := by rw [hE, if_pos hmew]
          have ha2 : max me (rec (s.set m 1) me b) = pv (s.set m 1) := by
            omega
          rw [hme2, hbest2, ha2]
          have hbase : max me (pv (s.set m 1)) = pv (s.set m 1) := by omega
          rw [hbase]
          have hihr := ih (pv (s.set m 1)) (m : Int) (pv (s.set m 1)) al b hab hwb
            (Or.inr (Or.inl ⟨rfl, by omega⟩)) hl2 hp2
          constructor
          · intro hV
            have := le_foldl_max (fun m2 => pv (s.set m2 1)) rest
              (pv (s.set m 1))
            omega
          · intro hV
            exact hihr.2 hV
      · -- invariant D3: fresh loop with alpha below INT_MIN
        have hIM : (INT_MIN : Int) < 1 := by norm_num [INT_MIN]
        rw [ha, hme]
        have hE : rec (s.set m 1) al b = pv (s.set m 1) :=
          (hrec (s.set m 1) al b hab).1 (by omega) hwb
        have hmew : INT_MIN < pv (s.set m 1) := by omega
        rw [if_neg (show ¬ b ≤ max al (rec (s.set m 1) al b) by omega)]
        have hme2 : (if INT_MIN < rec (s.set m 1) al b then rec (s.set m 1) al b
            else INT_MIN) = pv (s.set m 1) := by rw [hE, if_pos hmew]
        have hbest2 : (if INT_MIN < rec (s.set m 1) al b then (m : Int)
            else best) = (m : Int) := by rw [hE, if_pos hmew]
        have ha2 : max al (rec (s.set m 1) al b) = pv (s.set m 1) := by omega
        rw [hme2, hbest2, ha2]
        have hbase : max INT_MIN (pv (s.set m 1)) = pv (s.set m 1) := by omega
        rw [hbase]
        have hihr := ih (pv (s.set m 1)) (m : Int) (pv (s.set m 1)) al b hab hwb
          (Or.inr (Or.inl ⟨rfl, by omega⟩)) hl2 hp2
        constructor
        · intro hV
          have := le_foldl_max (fun m2 => pv (s.set m2 1)) rest
            (pv (s.set m 1))
          omega
        · intro hV
          exact hihr.2 hV

/-- Fail-soft lower bound for the pruned minimizing loop (mirror of
`maxLoop_fst_le`). -/
theorem minLoop_fst_ge (rec : State → Int → Int → Int) (pv : State → Int)
    (s : State)
    (hrec : ∀ st a2 b2, a2 < b2 →
      (a2 < pv st → pv st < b2 → rec st a2 b2 = pv st) ∧
      (pv st ≤ a2 → rec st a2 b2 ≤ a2) ∧
      (b2 ≤ pv st → b2 ≤ rec st a2 b2)) :
    ∀ (ms : List Nat) (me best a b A : Int), A ≤ b → A ≤ me → a < A →
      (∀ m ∈ ms, A ≤ pv (s.set m 2)) →
      A ≤ (minLoop rec s ms me best a b).1 := by
  intro ms
  induction ms with
  | nil => intro me best a b A _ hme _ _; exact hme
  | cons m rest ih =>
      intro me best a b A hb hme hab hl
      have hwA : A ≤ pv (s.set m 2) := hl m (List.mem_cons_self m rest)
      have haltb : a < b := by omega
      have heval : A ≤ rec (s.set m 2) a b := by
        by_cases hpb : b ≤ pv (s.set m 2)
        · exact le_trans hb ((hrec (s.set m 2) a b haltb).2.2 hpb)
        · have := (hrec (s.set m 2) a b haltb).1 (by omega) (by omega)
          omega
      have hme2 : A ≤ (if rec (s.set m 2) a b < me then rec (s.set m 2) a b
          else me) := by
        split <;> omega
      simp only [minLoop]
      rw [if_neg (show ¬ min b (rec (s.set m 2) a b) ≤ a by omega)]
      exact ih _ _ a _ A (by omega) hme2 hab
        fun m2 hm2 => hl m2 (List.mem_cons_of_mem m hm2)

/-- Fail-soft upper bound for the pruned minimizing loop (mirror of
`maxLoop_fst_ge`). -/
theorem minLoop_fst_le (rec : State → Int → Int → Int) (pv : State → Int)
    (s : State)
    (hrec : ∀ st a2 b2, a2 < b2 →
      (a2 < pv st → pv st < b2 → rec st a2 b2 = pv st) ∧
      (pv st ≤ a2 → rec st a2 b2 ≤ a2) ∧
      (b2 ≤ pv st → b2 ≤ rec st a2 b2)) :
    ∀ (ms : List Nat) (me best a b : Int), a < b →
      ((∃ m ∈ ms, pv (s.set m 2) ≤ a) ∨ me ≤ a) →
      (minLoop rec s ms me best a b).1 ≤ a := by
  intro ms
  induction ms with
  | nil =>
      intro me best a b _ hd
      rcases hd with ⟨m, hm, _⟩ | hme
      · exact absurd hm (List.not_mem_nil m)
      · exact hme
  | cons m rest ih =>
      intro me best a b hab hd
      simp only [minLoop]
      by_cases hbrk : min b (rec (s.set m 2) a b) ≤ a
      · rw [if_pos hbrk]
        have heb : rec (s.set m 2) a b ≤ a := by omega
        show (if rec (s.set m 2) a b < me then rec (s.set m 2) a b
          else me) ≤ a
        split <;> omega
      · rw [if_neg hbrk]
        have hab2 : a < min b (rec (s.set m 2) a b) := by omega
        apply ih _ _ a _ hab2
        rcases hd with ⟨m2, hm2, hp⟩ | hme
        · rcases List.mem_cons.1 hm2 with rfl | hm3
          · exact absurd ((hrec (s.set m2 2) a b hab).2.1 hp) (by omega)
          · exact Or.inl ⟨m2, hm3, hp⟩
        · refine Or.inr ?_
          split <;> omega

/-- Exact-tracking lemma for the pruned minimizing loop (mirror of
`maxLoop_fst_exact`). -/
theorem minLoop_fst_exact (rec : State → Int → Int → Int) (pv : State → Int)
    (s : State)
    (hrec : ∀ st a2 b2, a2 < b2 →
      (a2 < pv st → pv st < b2 → rec st a2 b2 = pv st) ∧
      (pv st ≤ a2 → rec st a2 b2 ≤ a2) ∧
      (b2 ≤ pv st → b2 ≤ rec st a2 b2)) :
    ∀ (ms : List Nat) (me best a b bt : Int), a < bt → a < me →
      ((b = bt ∧ bt ≤ me) ∨ (b = me ∧ me < bt) ∨
        (b = bt ∧ me = INT_MAX ∧ INT_MAX < bt)) →
      (∀ m ∈ ms, a < pv (s.set m 2)) →
      (∀ m ∈ ms, pv (s.set m 2) ≤ 3) →
      ((bt ≤ ms.foldl (fun acc m => min acc (pv (s.set m 2))) me →
          bt ≤ (minLoop rec s ms me best a b).1) ∧
       (ms.foldl (fun acc m => min acc (pv (s.set m 2))) me < bt →
          (minLoop rec s ms me best a b).1 =
            ms.foldl (fun acc m => min acc (pv (s.set m 2))) me)) := by
  intro ms
  induction ms with
  | nil =>
      intro me best a b bt _ _ hinv _ _
      constructor
      · intro hv
        rcases hinv with ⟨rfl, hme⟩ | ⟨rfl, hme⟩ | ⟨rfl, hme, hbt⟩ <;>
          exact hv
      · intro _
        rfl
  | cons m rest ih =>
      intro me best a b bt hab hame hinv hl hp
      have hwa : a < pv (s.set m 2) := hl m (List.mem_cons_self m rest)
      have hw3 : pv (s.set m 2) ≤ 3 := hp m (List.mem_cons_self m rest)
      have hl2 : ∀ m2 ∈ rest, a < pv (s.set m2 2) :=
        fun m2 hm2 => hl m2 (List.mem_cons_of_mem m hm2)
      have hp2 : ∀ m2 ∈ rest, pv (s.set m2 2) ≤ 3 :=
        fun m2 hm2 => hp m2 (List.mem_cons_of_mem m hm2)
      simp only [minLoop, List.foldl_cons]
      rcases hinv with ⟨hb, hme⟩ | ⟨hb, hme⟩ | ⟨hb, hme, hbt⟩
      · -- invariant D1: b = bt and bt ≤ me
        rw [hb]
        by_cases hw : bt ≤ pv (s.set m 2)
        · have hE : bt ≤ rec (s.set m 2) a bt := (hrec (s.set m 2) a bt hab).2.2 hw
          rw [if_neg (show ¬ min bt (rec (s.set m 2) a bt) ≤ a by omega)]
          have hb2 : min bt (rec (s.set m 2) a bt) = bt := by omega
          rw [hb2]
          have hme2 : bt ≤ (if rec (s.set m 2) a bt < me then
              rec (s.set m 2) a bt else me) := by split <;> omega
          have hbase : bt ≤ min me (pv (s.set m 2)) := by omega
          have hihr := ih _ (if rec (s.set m 2) a bt < me then (m : Int)
              else best) a bt bt hab (by omega) (Or.inl ⟨rfl, hme2⟩) hl2 hp2
          constructor
          · intro hV
            apply hihr.1
            exact le_foldl_min _ rest _ bt hme2 fun m2 hm2 =>
              le_trans hV (foldl_min_le_mem _ rest _ m2 hm2)
          · intro hV
            have hVe := foldl_min_congr (fun m2 => pv (s.set m2 2)) rest
              (min me (pv (s.set m 2)))
              (if rec (s.set m 2) a bt < me then rec (s.set m 2) a bt else me)
              bt hbase hme2 hV
            rw [hVe] at hV ⊢
            exact hihr.2 hV
        · have hE : rec (s.set m 2) a bt = pv (s.set m 2) :=
            (hrec (s.set m 2) a bt hab).1 hwa (by omega)
          have hmew : pv (s.set m 2) < me := by omega
          rw [if_neg (show ¬ min bt (rec (s.set m 2) a bt) ≤ a by omega)]
          have hme2 : (if rec (s.set m 2) a bt < me then rec (s.set m 2) a bt
              else me) = pv (s.set m 2) := by rw [hE, if_pos hmew]
          have hbest2 : (if rec (s.set m 2) a bt < me then (m : Int)
              else best) = (m : Int) := by rw [hE, if_pos hmew]
          have hb2 : min bt (rec (s.set m 2) a bt) = pv (s.set m 2) := by
            omega
          rw [hme2, hbest2, hb2]
          have hbase : min me (pv (s.set m 2)) = pv (s.set m 2) := by omega
          rw [hbase]
          have hihr := ih (pv (s.set m 2)) (m : Int) a (pv (s.set m 2)) bt
            hab hwa (Or.inr (Or.inl ⟨rfl, by omega⟩)) hl2 hp2
          constructor
          · intro hV
            have := foldl_min_le (fun m2 => pv (s.set m2 2)) rest
              (pv (s.set m 2))
            omega
          · intro hV
            exact hihr.2 hV
      · -- invariant D2: b = me and me < bt
        rw [hb]
        by_cases hw : me ≤ pv (s.set m 2)
        · have hE : me ≤ rec (s.set m 2) a me := (hrec (s.set m 2) a me hame).2.2 hw
          rw [if_neg (show ¬ min me (rec (s.set m 2) a me) ≤ a by omega)]
          have hme2 : (if rec (s.set m 2) a me < me then rec (s.set m 2) a me
              else me) = me := if_neg (by omega)
          have hbest2 : (if rec (s.set m 2) a me < me then (m : Int)
              else best) = best := if_neg (by omega)
          have hb2 : min me (rec (s.set m 2) a me) = me := by omega
          rw [hme2, hbest2, hb2]
          have hbase : min me (pv (s.set m 2)) = me := by omega
          rw [hbase]
          have hihr := ih me best a me bt hab hame
            (Or.inr (Or.inl ⟨rfl, hme⟩)) hl2 hp2
          constructor
          · intro hV
            have := foldl_min_le (fun m2 => pv (s.set m2 2)) rest me
            omega
          · intro hV
            exact hihr.2 hV
        · have hE : rec (s.set m 2) a me = pv (s.set m 2) :=
            (hrec (s.set m 2) a me hame).1 hwa (by omega)
          have hmew : pv (s.set m 2) < me := by omega
          rw [if_neg (show ¬ min me (rec (s.set m 2) a me) ≤ a by omega)]
          have hme2 : (if rec (s.set m 2) a me < me then rec (s.set m 2) a me
              else me) = pv (s.set m 2) := by rw [hE, if_pos hmew]
          have hbest2 : (if rec (s.set m 2) a me < me then (m : Int)
              else best) = (m : Int) := by rw [hE, if_pos hmew]
          have hb2 : min me (rec (s.set m 2) a me) = pv (s.set m 2) := by
            omega
          rw [hme2, hbest2, hb2]
          have hbase : min me (pv (s.set m 2)) = pv (s.set m 2) := by omega
          rw [hbase]
          have hihr := ih (pv (s.set m 2)) (m : Int) a (pv (s.set m 2)) bt
            hab hwa (Or.inr (Or.inl ⟨rfl, by omega⟩)) hl2 hp2
          constructor
          · intro hV
            have := foldl_min_le (fun m2 => pv (s.set m2 2)) rest
              (pv (s.set m 2))
            omega
          · intro hV
            exact hihr.2 hV
      · -- invariant D3: fresh loop with beta above INT_MAX
        have hIM : (3 : Int) < INT_MAX := by norm_num [INT_MAX]
        rw [hb, hme]
        have hE : rec (s.set m 2) a bt = pv (s.set m 2) :=
          (hrec (s.set m 2) a bt hab).1 hwa (by omega)
        have hmew : pv (s.set m 2) < INT_MAX := by omega
        rw [if_neg (show ¬ min bt (rec (s.set m 2) a bt) ≤ a by omega)]
        have hme2 : (if rec (s.set m 2) a bt < INT_MAX then rec (s.set m 2) a bt
            else INT_MAX) = pv (s.set m 2) := by rw [hE, if_pos hmew]
        have hbest2 : (if rec (s.set m 2) a bt < INT_MAX then (m : Int)
            else best) = (m : Int) := by rw [hE, if_pos hmew]
        have hb2 : min bt (rec (s.set m 2) a bt) = pv (s.set m 2) := by omega
        rw [hme2, hbest2, hb2]
        have hbase : min INT_MAX (pv (s.set m 2)) = pv (s.set m 2) := by omega
        rw [hbase]
        have hihr := ih (pv (s.set m 2)) (m : Int) a (pv (s.set m 2)) bt
          hab hwa (Or.inr (Or.inl ⟨rfl, by omega⟩)) hl2 hp2
        constructor
        · intro hV
          have := foldl_min_le (fun m2 => pv (s.set m2 2)) rest
            (pv (s.set m 2))
          omega
        · intro hV
          exact hihr.2 hV

/-- Window soundness of the pruned search against the unpruned reference
value, for every window `(a, b)` with `a < b`: inside the window the
pruned score is exact, at or below alpha it fails low (stays at or below
alpha), and at or above beta it fails high. -/
theorem minimax_window (w h : Nat) :
    ∀ (d : Nat) (s : State) (mx : Bool) (a b : Int), a < b →
      (a < (minimaxUnpruned w h d s mx).1 →
        (minimaxUnpruned w h d s mx).1 < b →
        (minimax w h d s mx a b).1 = (minimaxUnpruned w h d s mx).1) ∧
      ((minimaxUnpruned w h d s mx).1 ≤ a →
        (minimax w h d s mx a b).1 ≤ a) ∧
      (b ≤ (minimaxUnpruned w h d s mx).1 →
        b ≤ (minimax w h d s mx a b).1) := by
  intro d
  induction d with
  | zero =>
      intro s mx a b _
      have heq : (minimax w h 0 s mx a b).1 =
          (minimaxUnpruned w h 0 s mx).1 := rfl
      refine ⟨fun _ _ => heq, fun hv => ?_, fun hv => ?_⟩ <;> rw [heq] <;>
        exact hv
  | succ d ih =>
      intro s mx a b hab
      have hcommon : (minimax w h (d + 1) s mx a b).1 =
          (minimaxUnpruned w h (d + 1) s mx).1 →
          ((a < (minimaxUnpruned w h (d + 1) s mx).1 →
            (minimaxUnpruned w h (d + 1) s mx).1 < b →
            (minimax w h (d + 1) s mx a b).1 =
              (minimaxUnpruned w h (d + 1) s mx).1) ∧
          ((minimaxUnpruned w h (d + 1) s mx).1 ≤ a →
            (minimax w h (d + 1) s mx a b).1 ≤ a) ∧
          (b ≤ (minimaxUnpruned w h (d + 1) s mx).1 →
            b ≤ (minimax w h (d + 1) s mx a b).1)) := by
        intro heq
        refine ⟨fun _ _ => heq, fun hv => ?_, fun hv => ?_⟩ <;> rw [heq] <;>
          exact hv
      by_cases hw1 : checkWinCondition w h s 1 = true
      · exact hcommon (by simp [minimax, minimaxUnpruned, hw1])
      by_cases hw2 : checkWinCondition w h s 2 = true
      · exact hcommon (by simp [minimax, minimaxUnpruned, hw1, hw2])
      by_cases hfull : isBoardFull s = true
      · exact hcommon (by simp [minimax, minimaxUnpruned, hw1, hw2, hfull])
      by_cases hE : (getPossibleMoves w h s).isEmpty = true
      · exact hcommon
          (by cases mx <;> simp [minimax, minimaxUnpruned, hw1, hw2, hfull, hE])
      cases mx with
      | true =>
          have hmx1 : (minimax w h (d + 1) s true a b).1 =
              (maxLoop (fun st a2 b2 => (minimax w h d st false a2 b2).1) s
                (getPossibleMoves w h s) INT_MIN (-1) a b).1 := by
            simp [minimax, hw1, hw2, hfull, hE]
          have hpx1 : (minimaxUnpruned w h (d + 1) s true).1 =
              (getPossibleMoves w h s).foldl
                (fun acc m => max acc
                  ((minimaxUnpruned w h d (s.set m 1) false).1)) INT_MIN := by
            simp [minimaxUnpruned, hw1, hw2, hfull, hE]
            rw [plainMaxLoop_fst]
          rw [hmx1, hpx1]
          have hrecF := fun st a2 b2 h2 => ih st false a2 b2 h2
          have hVlo := le_foldl_max
            (fun m => (minimaxUnpruned w h d (s.set m 1) false).1)
            (getPossibleMoves w h s) INT_MIN
          have hmemV := fun m hm => mem_le_foldl_max
            (fun m => (minimaxUnpruned w h d (s.set m 1) false).1)
            (getPossibleMoves w h s) INT_MIN m hm
          refine ⟨?_, ?_, ?_⟩
          · intro hV1 hV2
            have hinv : (a = a ∧ INT_MIN ≤ a) ∨ (a = INT_MIN ∧ a < INT_MIN) ∨
                (a = a ∧ INT_MIN = INT_MIN ∧ a < INT_MIN) := by
              by_cases hIa : INT_MIN ≤ a
              · exact Or.inl ⟨rfl, hIa⟩
              · exact Or.inr (Or.inr ⟨rfl, rfl, by omega⟩)
            exact (maxLoop_fst_exact _ _ s hrecF (getPossibleMoves w h s)
              INT_MIN (-1) a a b hab (by omega) hinv
              (fun m hm => by have := hmemV m hm; omega)
              (fun m hm => (unpruned_fst_bounds w h d (s.set m 1) false).1)).2
              hV1
          · intro hV
            exact maxLoop_fst_le _ _ s hrecF (getPossibleMoves w h s)
              INT_MIN (-1) a a b (le_refl a) (by omega) hab
              fun m hm => by have := hmemV m hm; omega
          · intro hV
            apply maxLoop_fst_ge _ _ s hrecF (getPossibleMoves w h s)
              INT_MIN (-1) a b hab
            by_cases hbI : b ≤ INT_MIN
            · exact Or.inr hbI
            · obtain ⟨m, hm, hbm⟩ := exists_le_foldl_max _
                (getPossibleMoves w h s) INT_MIN b (by omega) hV
              exact Or.inl ⟨m, hm, hbm⟩
      | false =>
          have hmx1 : (minimax w h (d + 1) s false a b).1 =
              (minLoop (fun st a2 b2 => (minimax w h d st true a2 b2).1) s
                (getPossibleMoves w h s) INT_MAX (-1) a b).1 := by
            simp [minimax, hw1, hw2, hfull, hE]
          have hpx1 : (minimaxUnpruned w h (d + 1) s false).1 =
              (getPossibleMoves w h s).foldl
                (fun acc m => min acc
                  ((minimaxUnpruned w h d (s.set m 2) true).1)) INT_MAX := by
            simp [minimaxUnpruned, hw1, hw2, hfull, hE]
            rw [plainMinLoop_fst]
          rw [hmx1, hpx1]
          have hrecT := fun st a2 b2 h2 => ih st true a2 b2 h2
          have hVhi := foldl_min_le
            (fun m => (minimaxUnpruned w h d (s.set m 2) true).1)
            (getPossibleMoves w h s) INT_MAX
          have hmemV := fun m hm => foldl_min_le_mem
            (fun m => (minimaxUnpruned w h d (s.set m 2) true).1)
            (getPossibleMoves w h s) INT_MAX m hm
          refine ⟨?_, ?_, ?_⟩
          · intro hV1 hV2
            have hinv : (b = b ∧ b ≤ INT_MAX) ∨ (b = INT_MAX ∧ INT_MAX < b) ∨
                (b = b ∧ INT_MAX = INT_MAX ∧ INT_MAX < b) := by
              by_cases hIb : b ≤ INT_MAX
              · exact Or.inl ⟨rfl, hIb⟩
              · exact Or.inr (Or.inr ⟨rfl, rfl, by omega⟩)
            exact (minLoop_fst_exact _ _ s hrecT (getPossibleMoves w h s)
              INT_MAX (-1) a b b hab (by omega) hinv
              (fun m hm => by have := hmemV m hm; omega)
              (fun m hm => (unpruned_fst_bounds w h d (s.set m 2) true).2)).2
              hV2
          · intro hV
            apply minLoop_fst_le _ _ s hrecT (getPossibleMoves w h s)
              INT_MAX (-1) a b hab
            by_cases haI : INT_MAX ≤ a
            · exact Or.inr haI
            · obtain ⟨m, hm, ham⟩ := exists_foldl_min_le _
                (getPossibleMoves w h s) INT_MAX a (by omega) hV
              exact Or.inl ⟨m, hm, ham⟩
          · intro hV
            exact minLoop_fst_ge _ _ s hrecT (getPossibleMoves w h s)
              INT_MAX (-1) a b b (le_refl b) (by omega) hab
              fun m hm => by have := hmemV m hm; omega

/-- At the full window the pruned maximizing loop performs no cutoff and
tracks the unpruned loop exactly, provided alpha entered equal to the
running maximum (as at the root, where both are `INT_MIN`) and all child
values lie in `[1, 3]`. -/
theorem maxLoop_eq_plain (rec : State → Int → Int → Int) (pv : State → Int)
    (s : State)
    (hrec : ∀ st a2 b2, a2 < b2 →
      (a2 < pv st → pv st < b2 → rec st a2 b2 = pv st) ∧
      (pv st ≤ a2 → rec st a2 b2 ≤ a2) ∧
      (b2 ≤ pv st → b2 ≤ rec st a2 b2)) :
    ∀ (ms : List Nat) (me best : Int),
      (me = INT_MIN ∨ (1 ≤ me ∧ me ≤ 3)) →
      (∀ m ∈ ms, 1 ≤ pv (s.set m 1) ∧ pv (s.set m 1) ≤ 3) →
      maxLoop rec s ms me best me INT_MAX = plainMaxLoop pv s ms me best := by
  intro ms
  induction ms with
  | nil => intro me best _ _; rfl
  | cons m rest ih =>
      intro me best hme hb
      have hw := hb m (List.mem_cons_self m rest)
      have hb2 : ∀ m2 ∈ rest, 1 ≤ pv (s.set m2 1) ∧ pv (s.set m2 1) ≤ 3 :=
        fun m2 hm2 => hb m2 (List.mem_cons_of_mem m hm2)
      have hI1 : (INT_MIN : Int) < 1 := by norm_num [INT_MIN]
      have hI2 : (3 : Int) < INT_MAX := by norm_num [INT_MAX]
      have hmM : me < INT_MAX := by rcases hme with rfl | h2 <;> omega
      simp only [maxLoop, plainMaxLoop]
      by_cases hlt : me < pv (s.set m 1)
      · have hE : rec (s.set m 1) me INT_MAX = pv (s.set m 1) :=
          (hrec (s.set m 1) me INT_MAX (by omega)).1 hlt (by omega)
        rw [hE, if_pos hlt, if_pos hlt, if_pos hlt]
        rw [if_neg (show ¬ INT_MAX ≤ max me (pv (s.set m 1)) by omega)]
        have hmax : max me (pv (s.set m 1)) = pv (s.set m 1) := by omega
        rw [hmax]
        exact ih (pv (s.set m 1)) (m : Int) (Or.inr hw) hb2
      · have hge : pv (s.set m 1) ≤ me := by omega
        have hme3 : 1 ≤ me ∧ me ≤ 3 := by rcases hme with rfl | h2 <;> omega
        have hE : rec (s.set m 1) me INT_MAX ≤ me :=
          (hrec (s.set m 1) me INT_MAX (by omega)).2.1 hge
        have hcond : ¬ (me < rec (s.set m 1) me INT_MAX) := by omega
        rw [if_neg hcond, if_neg hcond, if_neg hlt]
        rw [if_neg (show ¬ INT_MAX ≤ max me (rec (s.set m 1) me INT_MAX) by
          omega)]
        have hmax : max me (rec (s.set m 1) me INT_MAX) = me := by omega
        rw [hmax]
        exact ih me best (Or.inr hme3) hb2

/-- Mirror of `maxLoop_eq_plain` for the minimizing loop at the full
window (beta entered equal to the running minimum `INT_MAX`, alpha at
`INT_MIN`). -/
theorem minLoop_eq_plain (rec : State → Int → Int → Int) (pv : State → Int)
    (s : State)
    (hrec : ∀ st a2 b2, a2 < b2 →
      (a2 < pv st → pv st < b2 → rec st a2 b2 = pv st) ∧
      (pv st ≤ a2 → rec st a2 b2 ≤ a2) ∧
      (b2 ≤ pv st → b2 ≤ rec st a2 b2)) :
    ∀ (ms : List Nat) (me best : Int),
      (me = INT_MAX ∨ (1 ≤ me ∧ me ≤ 3)) →
      (∀ m ∈ ms, 1 ≤ pv (s.set m 2) ∧ pv (s.set m 2) ≤ 3) →
      minLoop rec s ms me best INT_MIN me = plainMinLoop pv s ms me best := by
  intro ms
  induction ms with
  | nil => intro me best _ _; rfl
  | cons m rest ih =>
      intro me best hme hb
      have hw := hb m (List.mem_cons_self m rest)
      have hb2 : ∀ m2 ∈ rest, 1 ≤ pv (s.set m2 2) ∧ pv (s.set m2 2) ≤ 3 :=
        fun m2 hm2 => hb m2 (List.mem_cons_of_mem m hm2)
      have hI1 : (INT_MIN : Int) < 1 := by norm_num [INT_MIN]
      have hI2 : (3 : Int) < INT_MAX := by norm_num [INT_MAX]
      have hmM : INT_MIN < me := by rcases hme with rfl | h2 <;> omega
      simp only [minLoop, plainMinLoop]
      by_cases hlt : pv (s.set m 2) < me
      · have hE : rec (s.set m 2) INT_MIN me = pv (s.set m 2) :=
          (hrec (s.set m 2) INT_MIN me (by omega)).1 (by omega) hlt
        rw [hE, if_pos hlt, if_pos hlt, if_pos hlt]
        rw [if_neg (show ¬ min me (pv (s.set m 2)) ≤ INT_MIN by omega)]
        have hmin : min me (pv (s.set m 2)) = pv (s.set m 2) := by omega
        rw [hmin]
        exact ih (pv (s.set m 2)) (m : Int) (Or.inr hw) hb2
      · have hge : me ≤ pv (s.set m 2) := by omega
        have hme3 : 1 ≤ me ∧ me ≤ 3 := by rcases hme with rfl | h2 <;> omega
        have hE : me ≤ rec (s.set m 2) INT_MIN me :=
          (hrec (s.set m 2) INT_MIN me (by omega)).2.2 hge
        have hcond : ¬ (rec (s.set m 2) INT_MIN me < me) := by omega
        rw [if_neg hcond, if_neg hcond, if_neg hlt]
        rw [if_neg (show ¬ min me (rec (s.set m 2) INT_MIN me) ≤ INT_MIN by
          omega)]
        have hmin : min me (rec (s.set m 2) INT_MIN me) = me := by omega
        rw [hmin]
        exact ih me best (Or.inr hme3) hb2

/-- At the full window `(INT_MIN, INT_MAX)` the pruned search returns the
same (score, move) pair as the unpruned exhaustive search, at every depth,
for both plies. -/
theorem minimax_full_window_eq (w h : Nat) :
    ∀ (d : Nat) (s : State) (mx : Bool),
      minimax w h d s mx INT_MIN INT_MAX = minimaxUnpruned w h d s mx := by
  intro d
  induction d with
  | zero => intro s mx; rfl
  | succ d ih =>
      intro s mx
      by_cases hw1 : checkWinCondition w h s 1 = true
      · simp [minimax, minimaxUnpruned, hw1]
      by_cases hw2 : checkWinCondition w h s 2 = true
      · simp [minimax, minimaxUnpruned, hw1, hw2]
      by_cases hfull : isBoardFull s = true
      · simp [minimax, minimaxUnpruned, hw1, hw2, hfull]
      by_cases hE : (getPossibleMoves w h s).isEmpty = true
      · cases mx <;> simp [minimax, minimaxUnpruned, hw1, hw2, hfull, hE]
      cases mx with
      | true =>
          have hloop := maxLoop_eq_plain
            (fun st a2 b2 => (minimax w h d st false a2 b2).1)
            (fun st => (minimaxUnpruned w h d st false).1) s
            (fun st a2 b2 h2 => minimax_window w h d st false a2 b2 h2)
            (getPossibleMoves w h s) INT_MIN (-1) (Or.inl rfl)
            (fun m hm => unpruned_fst_bounds w h d (s.set m 1) false)
          simp only [minimax, minimaxUnpruned]
          simp [hw1, hw2, hfull, hE, hloop]
      | false =>
          have hloop := minLoop_eq_plain
            (fun st a2 b2 => (minimax w h d st true a2 b2).1)
            (fun st => (minimaxUnpruned w h d st true).1) s
            (fun st a2 b2 h2 => minimax_window w h d st true a2 b2 h2)
            (getPossibleMoves w h s) INT_MAX (-1) (Or.inl rfl)
            (fun m hm => unpruned_fst_bounds w h d (s.set m 2) true)
          simp only [minimax, minimaxUnpruned]
          simp [hw1, hw2, hfull, hE, hloop]

/-- Claim C6: for every board, every depth and both plies, the (score,
move) pair returned by the alpha-beta-pruned `minimax` at the full window
`(INT_MIN, INT_MAX)` — the window every caller passes — equals the pair
returned by the unpruned exhaustive search with the same base cases, the
same candidate order and the same earliest-strict-improvement
tie-break. -/
theorem minimax_alphabeta_eq_unpruned (w h : Nat) (d : Nat) (s : State)
    (mx : Bool) :
    minimax w h d s mx INT_MIN INT_MAX = minimaxUnpruned w h d s mx :=
  minimax_full_window_eq w h d s mx

end Gomoku
